import Mathlib

/-!
# Merge sort (`include/sort/merge.h`)

A shallow embedding of the three functions of `sort/merge.h`:

* `mergeSortMerge(stats, compare, begin, middle, end)`: the merge of two adjacent runs,
* `mergeSort(stats, compare, begin, end)`: the recursive splitter,
* `mergeSort(vec, order)`: the entry point on a vector.

A `std::vector<T>` is a `List α`; an iterator into it is the index (`Nat`) of the position it
points to, so `begin`, `middle`, `end` are indices with `end - begin` the iterator distance.
The statistics record is threaded through explicitly (the source passes it by reference).

Every function returns an `Option`: `none` stands for an execution the source gives no meaning
to (a read or write through an iterator outside the vector) and for a loop or recursion that
has used up the iteration budget the model hands it.  The theorems below prove that on
well-formed ranges the result is always `some _`.
-/

namespace MergeSort

variable {α : Type}

/-! ## Data model -/

/-- Modelled from the spec: `sort.h`, which declares `SortStats`, is not among the sources.
The spec describes a record of `comparisons_count` (comparator invocations), `swaps_count`
(element placements while merging) and `execution_time` (wall-clock duration of the call).
The counters are natural numbers; the duration is kept as a number of clock ticks. -/
structure SortStats where
  comparisons_count : Nat
  swaps_count : Nat
  execution_time : Nat
deriving DecidableEq, Repr

/-- Modelled from the spec: the record "is created empty at the start of the top-level call";
this is the value of the declaration `SortStats stats;`. -/
def SortStats.empty : SortStats :=
  { comparisons_count := 0, swaps_count := 0, execution_time := 0 }

/-- Modelled from the spec: `sort.h`, which declares `SortOrder`, is not among the sources.
The spec gives the two variants `ASC` and `DESC`; `other raw` stands for any further value an
extended enumeration (or a cast) could hold. -/
inductive SortOrder where
  | ASC : SortOrder
  | DESC : SortOrder
  | other (raw : Nat) : SortOrder
deriving DecidableEq, Repr

/-- The local variables of the loop of `mergeSortMerge`: the output buffer `vec`, the two read
cursors `left` and `right`, and the statistics record the loop increments. -/
structure MergeState (α : Type) where
  vec : List α
  left : Nat
  right : Nat
  stats : SortStats
deriving DecidableEq, Repr

/-! ## Iterator ranges -/

/-- The elements of the iterator range `[first, last)` of `v`, as `vec.insert(vec.end(), first,
last)` reads them; `none` when the range is not a range of `v`. -/
def range (v : List α) (first last : Nat) : Option (List α) :=
  if first ≤ last ∧ last ≤ v.length then some ((v.drop first).take (last - first)) else none

/-- The call `std::move(vec.begin(), vec.end(), d_first)`: the elements of `vec` are assigned, in
order, to the positions of `v` from `d_first` on; `none` when a position is outside `v`. -/
def move : List α → List α → Nat → Option (List α)
  | [], v, _ => some v
  | x :: xs, v, d_first =>
    if d_first < v.length then move xs (v.set d_first x) (d_first + 1) else none

/-! ## `mergeSortMerge` -/

/-- The `while (left != middle && right != end)` loop of `mergeSortMerge` (merge.h, lines 43-47).
Each iteration reads `*left` and `*right`, pushes `compare(*left, *right) ? *left++ : *right++`
and increments both counters.  The first argument bounds the number of loop tests. -/
def mergeLoop (compare : α → α → Bool) (v : List α) (middle end_ : Nat) :
    Nat → MergeState α → Option (MergeState α)
  | 0, _ => none
  | fuel + 1, s =>
    if s.left ≠ middle ∧ s.right ≠ end_ then
      match v[s.left]?, v[s.right]? with
      | some x, some y =>
        let stats : SortStats :=
          { comparisons_count := s.stats.comparisons_count + 1
            swaps_count := s.stats.swaps_count + 1
            execution_time := s.stats.execution_time }
        if compare x y then
          mergeLoop compare v middle end_ fuel
            { vec := s.vec ++ [x], left := s.left + 1, right := s.right, stats := stats }
        else
          mergeLoop compare v middle end_ fuel
            { vec := s.vec ++ [y], left := s.left, right := s.right + 1, stats := stats }
      | _, _ => none
    else some s

/-- The function `mergeSortMerge(stats, compare, begin, middle, end)` (merge.h, lines 34-53): the
loop from `left = begin`, `right = middle` and an empty `vec`, then the two tail inserts
`[left, middle)` and `[right, end)`.  Returns the updated statistics and the buffer `vec`. -/
def mergeSortMerge (stats : SortStats) (compare : α → α → Bool) (v : List α)
    (begin middle end_ : Nat) : Option (SortStats × List α) := do
  let s ← mergeLoop compare v middle end_ (end_ - begin + 1)
    { vec := [], left := begin, right := middle, stats := stats }
  let l ← range v s.left middle
  let r ← range v s.right end_
  some (s.stats, s.vec ++ l ++ r)

/-! ## `mergeSort` on an iterator range -/

/-- The body of `mergeSort(stats, compare, begin, end)` (merge.h, lines 69-80), with the depth of
the recursion bounded by the first argument. -/
def mergeSortFuel (compare : α → α → Bool) :
    Nat → SortStats → List α → Nat → Nat → Option (SortStats × List α)
  | 0, _, _, _, _ => none
  | fuel + 1, stats, v, begin, end_ =>
    if end_ - begin ≥ 2 then do
      let middle := begin + (end_ - begin) / 2
      let (stats1, v1) ← mergeSortFuel compare fuel stats v begin middle
      let (stats2, v2) ← mergeSortFuel compare fuel stats1 v1 middle end_
      let (stats3, vec) ← mergeSortMerge stats2 compare v2 begin middle end_
      let v3 ← move vec v2 begin
      some (stats3, v3)
    else some (stats, v)

/-- The function `mergeSort(stats, compare, begin, end)`: returns the updated statistics and the
vector after the call.  The recursion halves the range, so a depth of `end - begin + 1` is never
reached (`mergeSort_spec`). -/
def mergeSort (stats : SortStats) (compare : α → α → Bool) (v : List α) (begin end_ : Nat) :
    Option (SortStats × List α) :=
  mergeSortFuel compare (end_ - begin + 1) stats v begin end_

/-! ## `mergeSort` on a vector -/

/-- The entry point `mergeSort(vec, order)` (merge.h, lines 88-99).  `std::less_equal<T>` is
`a ≤ b` and `std::greater_equal<T>` is `a ≥ b`; `elapsed` is the difference of the two clock
readings, stored in `execution_time`.  Returns the statistics and the vector after the call. -/
def mergeSortVector [LE α] [DecidableRel (fun a b : α => a ≤ b)] (vec : List α)
    (order : SortOrder) (elapsed : Nat) : Option (SortStats × List α) := do
  let (stats, out) ←
    if order = SortOrder.ASC then
      mergeSort SortStats.empty (fun a b => decide (a ≤ b)) vec 0 vec.length
    else if order = SortOrder.DESC then
      mergeSort SortStats.empty (fun a b => decide (a ≥ b)) vec 0 vec.length
    else some (SortStats.empty, vec)
  some ({ comparisons_count := stats.comparisons_count
          swaps_count := stats.swaps_count
          execution_time := elapsed }, out)

/-! ## Observing the calls of `mergeSortMerge`

The same two functions, with a log of the calls of `mergeSortMerge` threaded through: every
call appends one record.  Dropping the log gives `mergeSortMerge` and `mergeSort`
(`mergeSortTraced_spec`). -/

/-- One call of `mergeSortMerge`: its iterator arguments, the number of elements its loop pushed
into `vec`, and the number of elements its two tail inserts appended to `vec`. -/
structure MergeCall where
  begin : Nat
  middle : Nat
  end_ : Nat
  pushed : Nat
  inserted : Nat
deriving DecidableEq, Repr

/-- The function `mergeSortMerge`, also returning the record of the call. -/
def mergeSortMergeTraced (stats : SortStats) (compare : α → α → Bool) (v : List α)
    (begin middle end_ : Nat) : Option (SortStats × List α × MergeCall) := do
  let s ← mergeLoop compare v middle end_ (end_ - begin + 1)
    { vec := [], left := begin, right := middle, stats := stats }
  let l ← range v s.left middle
  let r ← range v s.right end_
  some (s.stats, s.vec ++ l ++ r,
    { begin := begin, middle := middle, end_ := end_
      pushed := s.vec.length, inserted := l.length + r.length })

/-- The body of `mergeSort(stats, compare, begin, end)` with the log of merge calls. -/
def mergeSortTracedFuel (compare : α → α → Bool) :
    Nat → SortStats → List MergeCall → List α → Nat → Nat →
      Option (SortStats × List MergeCall × List α)
  | 0, _, _, _, _, _ => none
  | fuel + 1, stats, log, v, begin, end_ =>
    if end_ - begin ≥ 2 then do
      let middle := begin + (end_ - begin) / 2
      let (stats1, log1, v1) ← mergeSortTracedFuel compare fuel stats log v begin middle
      let (stats2, log2, v2) ← mergeSortTracedFuel compare fuel stats1 log1 v1 middle end_
      let (stats3, vec, call) ← mergeSortMergeTraced stats2 compare v2 begin middle end_
      let v3 ← move vec v2 begin
      some (stats3, log2 ++ [call], v3)
    else some (stats, log, v)

/-- The function `mergeSort(stats, compare, begin, end)` with the log of the merge calls it
makes, starting from an empty log. -/
def mergeSortTraced (stats : SortStats) (compare : α → α → Bool) (v : List α)
    (begin end_ : Nat) : Option (SortStats × List MergeCall × List α) :=
  mergeSortTracedFuel compare (end_ - begin + 1) stats [] v begin end_

/-! ## The variant that sorts the right half first -/

/-- The variant of `mergeSort(stats, compare, begin, end)` the spec describes for comparison:
at every level the right half `[middle, end)` is sorted before the left half `[begin, middle)`;
everything else is as in `mergeSortFuel`. -/
def mergeSortRightFirstFuel (compare : α → α → Bool) :
    Nat → SortStats → List α → Nat → Nat → Option (SortStats × List α)
  | 0, _, _, _, _ => none
  | fuel + 1, stats, v, begin, end_ =>
    if end_ - begin ≥ 2 then do
      let middle := begin + (end_ - begin) / 2
      let (stats1, v1) ← mergeSortRightFirstFuel compare fuel stats v middle end_
      let (stats2, v2) ← mergeSortRightFirstFuel compare fuel stats1 v1 begin middle
      let (stats3, vec) ← mergeSortMerge stats2 compare v2 begin middle end_
      let v3 ← move vec v2 begin
      some (stats3, v3)
    else some (stats, v)

/-- The right-half-first variant on a range, with the recursion budget of `mergeSort`. -/
def mergeSortRightFirst (stats : SortStats) (compare : α → α → Bool) (v : List α)
    (begin end_ : Nat) : Option (SortStats × List α) :=
  mergeSortRightFirstFuel compare (end_ - begin + 1) stats v begin end_

/-! ## Mathematical description of the results

The functions of this section are not in the source.  They describe, on plain lists, what the
functions above compute; the refinement lemmas below connect the two. -/

/-- The statistics record after `k` more loop iterations: both counters grow by `k`. -/
def SortStats.add (s : SortStats) (k : Nat) : SortStats :=
  { comparisons_count := s.comparisons_count + k
    swaps_count := s.swaps_count + k
    execution_time := s.execution_time }

/-- The elements at the positions `first, ..., last - 1` of `v`. -/
def slice (v : List α) (first last : Nat) : List α :=
  (v.drop first).take (last - first)

/-- The number of comparator calls made while merging the run `l` with the run `r`. -/
def mergeCount (compare : α → α → Bool) : List α → List α → Nat
  | [], _ => 0
  | _ :: _, [] => 0
  | x :: xs, y :: ys =>
    if compare x y then mergeCount compare xs (y :: ys) + 1
    else mergeCount compare (x :: xs) ys + 1
termination_by l r => l.length + r.length

/-- The list a range holding `l` holds after `mergeSort`: split at `l.length / 2`, sort both
parts, merge. -/
def sortList (compare : α → α → Bool) (l : List α) : List α :=
  if h : 2 ≤ l.length then
    List.merge (sortList compare (l.take (l.length / 2)))
      (sortList compare (l.drop (l.length / 2))) compare
  else l
termination_by l.length
decreasing_by
  · simp only [List.length_take]; omega
  · simp only [List.length_drop]; omega

/-- The number of comparator calls `mergeSort` makes on a range holding `l`. -/
def sortCount (compare : α → α → Bool) (l : List α) : Nat :=
  if _h : 2 ≤ l.length then
    sortCount compare (l.take (l.length / 2)) + sortCount compare (l.drop (l.length / 2))
      + mergeCount compare (sortList compare (l.take (l.length / 2)))
          (sortList compare (l.drop (l.length / 2)))
  else 0
termination_by l.length
decreasing_by
  · simp only [List.length_take]; omega
  · simp only [List.length_drop]; omega

/-- The records of the `mergeSortMerge` calls that `mergeSort` makes on a range starting at
position `b` and holding `l`, in the order of the calls: those of the left half, those of the
right half, then the merge of the two halves. -/
def sortCalls (compare : α → α → Bool) (b : Nat) (l : List α) : List MergeCall :=
  if h : 2 ≤ l.length then
    sortCalls compare b (l.take (l.length / 2)) ++
      sortCalls compare (b + l.length / 2) (l.drop (l.length / 2)) ++
      [{ begin := b, middle := b + l.length / 2, end_ := b + l.length
         pushed := mergeCount compare (sortList compare (l.take (l.length / 2)))
           (sortList compare (l.drop (l.length / 2)))
         inserted := l.length - mergeCount compare (sortList compare (l.take (l.length / 2)))
           (sortList compare (l.drop (l.length / 2))) }]
  else []
termination_by l.length
decreasing_by
  · simp only [List.length_take]; omega
  · simp only [List.length_drop]; omega

/-- The recurrence of the claim for the number of comparisons on a sorted input of size `n`:
`C(0) = C(1) = 0` and `C(n) = C(n / 2) + C(n - n / 2) + n / 2` for `n ≥ 2`. -/
def sortedComparisons (n : Nat) : Nat :=
  if h : 2 ≤ n then sortedComparisons (n / 2) + sortedComparisons (n - n / 2) + n / 2 else 0
termination_by n
decreasing_by
  · omega
  · omega

/-- An element that carries a sort key and a tag the order does not look at (`4a`, `4b`). -/
structure Tagged where
  key : Nat
  tag : Char
deriving DecidableEq, Repr

/-- The comparison of `Tagged` elements by number: `operator<=` compares the keys only. -/
instance : LE Tagged := ⟨fun a b => a.key ≤ b.key⟩

instance : DecidableRel (fun a b : Tagged => a ≤ b) :=
  fun a b => inferInstanceAs (Decidable (a.key ≤ b.key))

/-- The comparator `std::less_equal<T>` on natural numbers. -/
def natLE (a b : Nat) : Bool := decide (a ≤ b)

/-! ## Refinement lemmas -/

theorem SortStats.add_zero (s : SortStats) : s.add 0 = s := rfl

theorem SortStats.add_add (s : SortStats) (j k : Nat) : (s.add j).add k = s.add (j + k) := by
  simp [SortStats.add, Nat.add_assoc]

theorem slice_self (v : List α) (i : Nat) : slice v i i = [] := by
  simp [slice]

theorem length_slice (v : List α) (i j : Nat) (hj : j ≤ v.length) :
    (slice v i j).length = j - i := by
  simp only [slice, List.length_take, List.length_drop]; omega

theorem slice_cons (v : List α) (i j : Nat) (hij : i < j) (hj : j ≤ v.length) :
    ∃ x, v[i]? = some x ∧ slice v i j = x :: slice v (i + 1) j := by
  have hi : i < v.length := by omega
  refine ⟨v[i], List.getElem?_eq_getElem hi, ?_⟩
  unfold slice
  rw [List.drop_eq_getElem_cons hi]
  obtain ⟨k, hk⟩ : ∃ k, j - i = k + 1 := ⟨j - i - 1, by omega⟩
  have hk2 : j - (i + 1) = k := by omega
  rw [hk, hk2, List.take_succ_cons]

theorem slice_append_mid (pre l post : List α) :
    slice (pre ++ l ++ post) pre.length (pre.length + l.length) = l := by
  simp [slice, List.append_assoc]

theorem slice_zero_length (v : List α) : slice v 0 v.length = v := by
  simp [slice]

theorem range_eq_some (v : List α) (i j : Nat) (hij : i ≤ j) (hj : j ≤ v.length) :
    range v i j = some (slice v i j) := by
  simp [range, slice, hij, hj]

theorem mergeCount_nil_right (compare : α → α → Bool) (l : List α) :
    mergeCount compare l [] = 0 := by
  cases l <;> simp [mergeCount]

theorem mergeCount_cons_cons (compare : α → α → Bool) (x y : α) (xs ys : List α) :
    mergeCount compare (x :: xs) (y :: ys) =
      if compare x y then mergeCount compare xs (y :: ys) + 1
      else mergeCount compare (x :: xs) ys + 1 := by
  rw [mergeCount]

/-- The loop of `mergeSortMerge` ends, within `(middle - left) + (end - right) + 1` loop tests,
in a state where one run is exhausted; the buffer followed by the two unread tails is the merge
of the two unread runs appended to the buffer at entry, and both counters have grown by the
number of comparisons of that merge. -/
theorem mergeLoop_spec (compare : α → α → Bool) (v : List α) (middle end_ : Nat)
    (hm : middle ≤ v.length) (he : end_ ≤ v.length) :
    ∀ (fuel : Nat) (s : MergeState α), s.left ≤ middle → s.right ≤ end_ →
      (middle - s.left) + (end_ - s.right) < fuel →
      ∃ t, mergeLoop compare v middle end_ fuel s = some t ∧
        t.left ≤ middle ∧ t.right ≤ end_ ∧ (t.left = middle ∨ t.right = end_) ∧
        t.vec ++ slice v t.left middle ++ slice v t.right end_ =
          s.vec ++ List.merge (slice v s.left middle) (slice v s.right end_) compare ∧
        t.stats =
          s.stats.add (mergeCount compare (slice v s.left middle) (slice v s.right end_)) := by
  intro fuel
  induction fuel with
  | zero => intro s _ _ h; omega
  | succ fuel ih =>
    intro s hl hr hf
    by_cases hc : s.left ≠ middle ∧ s.right ≠ end_
    · obtain ⟨x, hx, hxs⟩ := slice_cons v s.left middle (by omega) hm
      obtain ⟨y, hy, hys⟩ := slice_cons v s.right end_ (by omega) he
      simp only [mergeLoop, if_pos hc, hx, hy]
      by_cases hxy : compare x y = true
      · simp only [hxy, if_true]
        obtain ⟨t, h1, h2, h3, h4, h5, h6⟩ :=
          ih ⟨s.vec ++ [x], s.left + 1, s.right,
            ⟨s.stats.comparisons_count + 1, s.stats.swaps_count + 1, s.stats.execution_time⟩⟩
            (by simp only; omega) (by simpa using hr) (by simp only; omega)
        refine ⟨t, h1, h2, h3, h4, ?_, ?_⟩
        · rw [h5, hxs, hys, List.cons_merge_cons_pos _ _ _ hxy]
          simp [hys]
        · rw [h6, hxs, hys, mergeCount_cons_cons, if_pos hxy]
          simp only [SortStats.add, SortStats.mk.injEq, Nat.add_assoc, Nat.add_comm 1, and_self]
      · simp only [hxy]
        obtain ⟨t, h1, h2, h3, h4, h5, h6⟩ :=
          ih ⟨s.vec ++ [y], s.left, s.right + 1,
            ⟨s.stats.comparisons_count + 1, s.stats.swaps_count + 1, s.stats.execution_time⟩⟩
            (by simpa using hl) (by simp only; omega) (by simp only; omega)
        refine ⟨t, h1, h2, h3, h4, ?_, ?_⟩
        · rw [h5, hxs, hys, List.cons_merge_cons_neg _ _ _ hxy]
          simp [hxs]
        · rw [h6, hxs, hys, mergeCount_cons_cons, if_neg hxy]
          simp only [SortStats.add, SortStats.mk.injEq, Nat.add_assoc, Nat.add_comm 1, and_self]
    · simp only [mergeLoop, if_neg hc]
      have hc2 : s.left = middle ∨ s.right = end_ := by omega
      refine ⟨s, rfl, hl, hr, hc2, ?_, ?_⟩
      · rcases hc2 with h | h
        · rw [h, slice_self, List.nil_merge]; simp
        · rw [h, slice_self, List.merge_right]; simp
      · rcases hc2 with h | h
        · rw [h, slice_self, mergeCount]; rfl
        · rw [h, slice_self, mergeCount_nil_right]; rfl

/-- On a well-formed split range `mergeSortMerge` returns the merge of the two runs and adds
the number of comparisons of that merge to both counters. -/
theorem mergeSortMerge_spec (stats : SortStats) (compare : α → α → Bool) (v : List α)
    (begin middle end_ : Nat) (hbm : begin ≤ middle) (hme : middle ≤ end_)
    (he : end_ ≤ v.length) :
    mergeSortMerge stats compare v begin middle end_ =
      some (stats.add (mergeCount compare (slice v begin middle) (slice v middle end_)),
        List.merge (slice v begin middle) (slice v middle end_) compare) := by
  obtain ⟨t, h1, h2, h3, -, h5, h6⟩ :=
    mergeLoop_spec compare v middle end_ (by omega) he (end_ - begin + 1)
      ⟨[], begin, middle, stats⟩ hbm hme (by simp only; omega)
  simp only [mergeSortMerge, h1, Option.bind_eq_bind, Option.some_bind,
    range_eq_some v t.left middle h2 (by omega), range_eq_some v t.right end_ h3 he]
  simp only [List.nil_append] at h5
  rw [h5, h6]


theorem move_spec (post : List α) :
    ∀ (vec pre old : List α), vec.length = old.length →
      move vec (pre ++ old ++ post) pre.length = some (pre ++ vec ++ post) := by
  intro vec
  induction vec with
  | nil =>
    intro pre old h
    cases old with
    | nil => rfl
    | cons o os => simp at h
  | cons x xs ih =>
    intro pre old h
    cases old with
    | nil => simp at h
    | cons o os =>
      have hlt : pre.length < (pre ++ o :: os ++ post).length := by simp
      have hset : (pre ++ o :: os ++ post).set pre.length x = (pre ++ [x]) ++ os ++ post := by
        simp [List.append_assoc, List.set_append_right]
      have hlen : pre.length + 1 = (pre ++ [x]).length := by simp
      rw [move, if_pos hlt, hset, hlen, ih (pre ++ [x]) os (by simpa using h)]
      simp

theorem sortList_of_short (compare : α → α → Bool) (l : List α) (h : ¬ 2 ≤ l.length) :
    sortList compare l = l := by
  rw [sortList, dif_neg h]

theorem sortCount_of_short (compare : α → α → Bool) (l : List α) (h : ¬ 2 ≤ l.length) :
    sortCount compare l = 0 := by
  rw [sortCount, dif_neg h]

theorem sortList_append (compare : α → α → Bool) (l1 l2 : List α)
    (h2 : 2 ≤ (l1 ++ l2).length) (hl1 : l1.length = (l1 ++ l2).length / 2) :
    sortList compare (l1 ++ l2) = List.merge (sortList compare l1) (sortList compare l2) compare := by
  rw [sortList, dif_pos h2, ← hl1, List.take_left, List.drop_left]

theorem sortCount_append (compare : α → α → Bool) (l1 l2 : List α)
    (h2 : 2 ≤ (l1 ++ l2).length) (hl1 : l1.length = (l1 ++ l2).length / 2) :
    sortCount compare (l1 ++ l2) = sortCount compare l1 + sortCount compare l2 +
      mergeCount compare (sortList compare l1) (sortList compare l2) := by
  rw [sortCount, dif_pos h2, ← hl1, List.take_left, List.drop_left]

theorem split_half (l : List α) :
    ∃ l1 l2, l = l1 ++ l2 ∧ l1.length = l.length / 2 := by
  refine ⟨l.take (l.length / 2), l.drop (l.length / 2), (List.take_append_drop _ _).symm, ?_⟩
  simp only [List.length_take]; omega

theorem sortList_perm (compare : α → α → Bool) :
    ∀ (n : Nat) (l : List α), l.length ≤ n → (sortList compare l).Perm l := by
  intro n
  induction n with
  | zero => intro l h; rw [sortList_of_short compare l (by omega)]
  | succ n ih =>
    intro l h
    by_cases h2 : 2 ≤ l.length
    · obtain ⟨l1, l2, rfl, hl1⟩ := split_half l
      have hlen : (l1 ++ l2).length = l1.length + l2.length := List.length_append _ _
      rw [sortList_append compare l1 l2 h2 hl1]
      exact (List.merge_perm_append compare).trans
        ((ih l1 (by omega)).append (ih l2 (by omega)))
    · rw [sortList_of_short compare l h2]

theorem length_sortList (compare : α → α → Bool) (l : List α) :
    (sortList compare l).length = l.length :=
  (sortList_perm compare l.length l (Nat.le_refl _)).length_eq


/-- With a recursion budget above the length of the range, `mergeSort` on the range holding `l`
(between a prefix `pre` and a suffix `post` of the vector) returns: the range now holds
`sortList compare l`, the rest of the vector is as before, and both counters have grown by
`sortCount compare l`. -/
theorem mergeSortFuel_spec (compare : α → α → Bool) :
    ∀ (fuel : Nat) (stats : SortStats) (pre l post : List α), l.length < fuel →
      mergeSortFuel compare fuel stats (pre ++ l ++ post) pre.length (pre.length + l.length) =
        some (stats.add (sortCount compare l), pre ++ sortList compare l ++ post) := by
  intro fuel
  induction fuel with
  | zero => intro _ _ _ _ h; omega
  | succ fuel ih =>
    intro stats pre l post hf
    have hsub : pre.length + l.length - pre.length = l.length := by omega
    by_cases h2 : 2 ≤ l.length
    · obtain ⟨l1, l2, rfl, hl1⟩ := split_half l
      have hlen : (l1 ++ l2).length = l1.length + l2.length := List.length_append _ _
      have hs1 := length_sortList compare l1
      have hs2 := length_sortList compare l2
      have e1 : mergeSortFuel compare fuel stats (pre ++ (l1 ++ l2) ++ post) pre.length
          (pre.length + (l1 ++ l2).length / 2) =
          some (stats.add (sortCount compare l1),
            pre ++ sortList compare l1 ++ l2 ++ post) := by
        have h := ih stats pre l1 (l2 ++ post) (by omega)
        rw [← hl1]
        simpa only [List.append_assoc] using h
      have e2 : mergeSortFuel compare fuel (stats.add (sortCount compare l1))
          (pre ++ sortList compare l1 ++ l2 ++ post) (pre.length + (l1 ++ l2).length / 2)
          (pre.length + (l1 ++ l2).length) =
          some ((stats.add (sortCount compare l1)).add (sortCount compare l2),
            pre ++ sortList compare l1 ++ sortList compare l2 ++ post) := by
        have h := ih (stats.add (sortCount compare l1)) (pre ++ sortList compare l1) l2 post
          (by omega)
        rw [List.length_append, hs1, Nat.add_assoc] at h
        rw [← hl1, hlen]
        exact h
      have e3 : mergeSortMerge ((stats.add (sortCount compare l1)).add (sortCount compare l2))
          compare (pre ++ sortList compare l1 ++ sortList compare l2 ++ post) pre.length
          (pre.length + (l1 ++ l2).length / 2) (pre.length + (l1 ++ l2).length) =
          some (stats.add (sortCount compare (l1 ++ l2)), sortList compare (l1 ++ l2)) := by
        rw [mergeSortMerge_spec _ _ _ _ _ _ (by omega) (by omega)
          (by simp only [List.length_append]; omega)]
        have s1 : slice (pre ++ sortList compare l1 ++ sortList compare l2 ++ post) pre.length
            (pre.length + (l1 ++ l2).length / 2) = sortList compare l1 := by
          have h := slice_append_mid pre (sortList compare l1) (sortList compare l2 ++ post)
          rw [hs1, hl1] at h
          simpa only [List.append_assoc] using h
        have s2 : slice (pre ++ sortList compare l1 ++ sortList compare l2 ++ post)
            (pre.length + (l1 ++ l2).length / 2) (pre.length + (l1 ++ l2).length) =
            sortList compare l2 := by
          have h := slice_append_mid (pre ++ sortList compare l1) (sortList compare l2) post
          rw [List.length_append, hs1, hs2, Nat.add_assoc] at h
          rw [← hl1, hlen]
          exact h
        rw [s1, s2, sortList_append compare l1 l2 h2 hl1, sortCount_append compare l1 l2 h2 hl1,
          SortStats.add_add, SortStats.add_add, Nat.add_assoc]
      have e4 : move (sortList compare (l1 ++ l2))
          (pre ++ sortList compare l1 ++ sortList compare l2 ++ post) pre.length =
          some (pre ++ sortList compare (l1 ++ l2) ++ post) := by
        have h := move_spec post (sortList compare (l1 ++ l2)) pre
          (sortList compare l1 ++ sortList compare l2)
          (by rw [length_sortList, List.length_append, List.length_append, hs1, hs2])
        simpa only [List.append_assoc] using h
      simp only [mergeSortFuel, hsub, ge_iff_le, h2, if_true, e1, e2, e3, e4,
        Option.bind_eq_bind, Option.some_bind]
    · simp only [mergeSortFuel, hsub, ge_iff_le, h2, if_false,
        sortList_of_short compare l h2, sortCount_of_short compare l h2, SortStats.add_zero]

/-- The function `mergeSort` returns on every range of the vector (the recursion budget is
never used up), with the result described by `sortList` and `sortCount`. -/
theorem mergeSort_spec (stats : SortStats) (compare : α → α → Bool) (pre l post : List α) :
    mergeSort stats compare (pre ++ l ++ post) pre.length (pre.length + l.length) =
      some (stats.add (sortCount compare l), pre ++ sortList compare l ++ post) := by
  unfold mergeSort
  exact mergeSortFuel_spec compare _ stats pre l post (by omega)

/-- The whole-range case of `mergeSort_spec`. -/
theorem mergeSort_whole (stats : SortStats) (compare : α → α → Bool) (v : List α) :
    mergeSort stats compare v 0 v.length =
      some (stats.add (sortCount compare v), sortList compare v) := by
  have h := mergeSort_spec stats compare [] v []
  simpa using h


/-! ## Properties of the sorted list -/

theorem pairwise_of_short (r : α → α → Prop) (l : List α) (h : ¬ 2 ≤ l.length) :
    l.Pairwise r := by
  match l, h with
  | [], _ => exact List.Pairwise.nil
  | [a], _ => exact List.pairwise_singleton r a
  | _ :: _ :: _, h => simp at h

theorem chain_iff_pairwise (compare : α → α → Bool)
    (htrans : ∀ a b c, compare a b = true → compare b c = true → compare a c = true)
    (l : List α) :
    l.Chain' (fun a b => compare a b = true) ↔ l.Pairwise (fun a b => compare a b = true) := by
  haveI : IsTrans α (fun a b => compare a b = true) := ⟨htrans⟩
  exact List.chain'_iff_pairwise

theorem sortList_pairwise (compare : α → α → Bool)
    (htot : ∀ a b, compare a b = true ∨ compare b a = true)
    (htrans : ∀ a b c, compare a b = true → compare b c = true → compare a c = true) :
    ∀ (n : Nat) (l : List α), l.length ≤ n →
      (sortList compare l).Pairwise (fun a b => compare a b = true) := by
  intro n
  induction n with
  | zero =>
    intro l h
    rw [sortList_of_short compare l (by omega)]
    exact pairwise_of_short _ l (by omega)
  | succ n ih =>
    intro l h
    by_cases h2 : 2 ≤ l.length
    · obtain ⟨l1, l2, rfl, hl1⟩ := split_half l
      have hlen : (l1 ++ l2).length = l1.length + l2.length := List.length_append _ _
      rw [sortList_append compare l1 l2 h2 hl1]
      exact List.sorted_merge htrans (fun a b => by simpa [Bool.or_eq_true] using htot a b)
        _ _ (ih l1 (by omega)) (ih l2 (by omega))
    · rw [sortList_of_short compare l h2]
      exact pairwise_of_short _ l h2

theorem sortList_of_pairwise (compare : α → α → Bool) :
    ∀ (n : Nat) (l : List α), l.length ≤ n → l.Pairwise (fun a b => compare a b = true) →
      sortList compare l = l := by
  intro n
  induction n with
  | zero => intro l h _; exact sortList_of_short compare l (by omega)
  | succ n ih =>
    intro l h hp
    by_cases h2 : 2 ≤ l.length
    · obtain ⟨l1, l2, rfl, hl1⟩ := split_half l
      have hlen : (l1 ++ l2).length = l1.length + l2.length := List.length_append _ _
      obtain ⟨hp1, hp2, hp12⟩ := List.pairwise_append.mp hp
      rw [sortList_append compare l1 l2 h2 hl1, ih l1 (by omega) hp1, ih l2 (by omega) hp2]
      exact List.merge_of_le (fun a b ha hb => hp12 a ha b hb)
    · exact sortList_of_short compare l h2

/-- A sorted subsequence of the concatenation of two runs, the left one sorted, is still a
subsequence of their merge: the merge never moves an element of the right run in front of an
element of the left run that compares before it. -/
theorem sublist_merge (compare : α → α → Bool)
    (htrans : ∀ a b c, compare a b = true → compare b c = true → compare a c = true) :
    ∀ (l r c : List α), l.Pairwise (fun a b => compare a b = true) →
      c.Pairwise (fun a b => compare a b = true) → c.Sublist (l ++ r) →
      c.Sublist (List.merge l r compare) := by
  intro l
  induction l with
  | nil => intro r c _ _ h; simpa using h
  | cons x l ihl =>
    intro r
    induction r with
    | nil => intro c _ _ h; simpa using h
    | cons y r ihr =>
      intro c hl hc h
      by_cases hxy : compare x y = true
      · rw [List.cons_merge_cons_pos _ _ _ hxy]
        rw [List.cons_append] at h
        cases h with
        | cons _ h => exact (ihl (y :: r) c hl.of_cons hc h).cons x
        | cons₂ _ h => exact (ihl (y :: r) _ hl.of_cons hc.of_cons h).cons₂ x
      · rw [List.cons_merge_cons_neg _ _ _ hxy]
        obtain ⟨c1, c2, rfl, h1, h2⟩ := List.sublist_append_iff.mp h
        cases h2 with
        | cons _ h2 => exact (ihr (c1 ++ _) hl hc (h1.append h2)).cons y
        | cons₂ _ h2 =>
          rename_i c2
          cases c1 with
          | nil =>
            rw [List.nil_append] at hc ⊢
            exact (ihr c2 hl hc.of_cons
              (List.sublist_append_of_sublist_right h2)).cons₂ y
          | cons z c1 =>
            exfalso
            apply hxy
            have hzy : compare z y = true :=
              List.rel_of_pairwise_cons hc (List.mem_append_right c1 (List.mem_cons_self y c2))
            rcases List.mem_cons.mp (h1.subset (List.mem_cons_self z c1)) with hz | hz
            · rw [← hz]; exact hzy
            · exact htrans x z y (List.rel_of_pairwise_cons hl hz) hzy

/-- Stability of the sorted list: a subsequence of the input that is in sorted order is a
subsequence of the output. -/
theorem sublist_sortList (compare : α → α → Bool)
    (htot : ∀ a b, compare a b = true ∨ compare b a = true)
    (htrans : ∀ a b c, compare a b = true → compare b c = true → compare a c = true) :
    ∀ (n : Nat) (l c : List α), l.length ≤ n → c.Pairwise (fun a b => compare a b = true) →
      c.Sublist l → c.Sublist (sortList compare l) := by
  intro n
  induction n with
  | zero => intro l c h _ hs; rw [sortList_of_short compare l (by omega)]; exact hs
  | succ n ih =>
    intro l c h hc hs
    by_cases h2 : 2 ≤ l.length
    · obtain ⟨l1, l2, rfl, hl1⟩ := split_half l
      have hlen : (l1 ++ l2).length = l1.length + l2.length := List.length_append _ _
      obtain ⟨c1, c2, rfl, h1, h2s⟩ := List.sublist_append_iff.mp hs
      obtain ⟨hc1, hc2, -⟩ := List.pairwise_append.mp hc
      rw [sortList_append compare l1 l2 h2 hl1]
      exact sublist_merge compare htrans _ _ _
        (sortList_pairwise compare htot htrans l1.length l1 (Nat.le_refl _)) hc
        ((ih l1 c1 (by omega) hc1 h1).append (ih l2 c2 (by omega) hc2 h2s))
    · rw [sortList_of_short compare l h2]; exact hs


/-! ## Counting comparisons -/

theorem mergeCount_le (compare : α → α → Bool) :
    ∀ (l r : List α), mergeCount compare l r ≤ l.length + r.length - 1 := by
  intro l
  induction l with
  | nil => intro r; simp [mergeCount]
  | cons x l ihl =>
    intro r
    induction r with
    | nil => simp [mergeCount]
    | cons y r ihr =>
      rw [mergeCount_cons_cons]
      have h1 := ihl (y :: r)
      have h2 := ihr
      simp only [List.length_cons] at h1 h2 ⊢
      split <;> omega

theorem clog_split (n : Nat) (h2 : 2 ≤ n) :
    n / 2 * Nat.clog 2 (n / 2) + (n - n / 2) * Nat.clog 2 (n - n / 2) + n ≤
      n * Nat.clog 2 n := by
  have hb : (n + 2 - 1) / 2 = n - n / 2 := by omega
  have hc : Nat.clog 2 n = Nat.clog 2 (n - n / 2) + 1 := by
    rw [Nat.clog_of_two_le (by omega) h2, hb]
  have hmono : Nat.clog 2 (n / 2) ≤ Nat.clog 2 (n - n / 2) :=
    Nat.clog_mono_right 2 (by omega)
  have h1 : n / 2 * Nat.clog 2 (n / 2) ≤ n / 2 * Nat.clog 2 (n - n / 2) :=
    Nat.mul_le_mul_left _ hmono
  have hn : n / 2 + (n - n / 2) = n := by omega
  have h3 : n * Nat.clog 2 n =
      n / 2 * Nat.clog 2 (n - n / 2) + (n - n / 2) * Nat.clog 2 (n - n / 2) + n := by
    rw [hc, ← Nat.add_mul, hn, Nat.mul_add, Nat.mul_one]
  omega

/-- The number of comparisons of `mergeSort` on `n` elements is at most `n * ⌈log₂ n⌉`. -/
theorem sortCount_le (compare : α → α → Bool) :
    ∀ (n : Nat) (l : List α), l.length ≤ n →
      sortCount compare l ≤ l.length * Nat.clog 2 l.length := by
  intro n
  induction n with
  | zero => intro l h; rw [sortCount_of_short compare l (by omega)]; exact Nat.zero_le _
  | succ n ih =>
    intro l h
    by_cases h2 : 2 ≤ l.length
    · obtain ⟨l1, l2, rfl, hl1⟩ := split_half l
      have hlen : (l1 ++ l2).length = l1.length + l2.length := List.length_append _ _
      have hl2 : (l1 ++ l2).length - l1.length = l2.length := by omega
      have i1 := ih l1 (by omega)
      have i2 := ih l2 (by omega)
      have hm := mergeCount_le compare (sortList compare l1) (sortList compare l2)
      rw [length_sortList, length_sortList] at hm
      have hs := clog_split (l1 ++ l2).length h2
      rw [← hl1, hl2] at hs
      rw [sortCount_append compare l1 l2 h2 hl1]
      omega
    · rw [sortCount_of_short compare l h2]; exact Nat.zero_le _


/-! ## The entry point -/

theorem mergeSortVector_ASC [LE α] [DecidableRel (fun a b : α => a ≤ b)] (vec : List α)
    (elapsed : Nat) :
    mergeSortVector vec SortOrder.ASC elapsed =
      some (⟨sortCount (fun a b => decide (a ≤ b)) vec,
          sortCount (fun a b => decide (a ≤ b)) vec, elapsed⟩,
        sortList (fun a b => decide (a ≤ b)) vec) := by
  simp [mergeSortVector, mergeSort_whole, SortStats.add, SortStats.empty]

theorem mergeSortVector_DESC [LE α] [DecidableRel (fun a b : α => a ≤ b)] (vec : List α)
    (elapsed : Nat) :
    mergeSortVector vec SortOrder.DESC elapsed =
      some (⟨sortCount (fun a b => decide (a ≥ b)) vec,
          sortCount (fun a b => decide (a ≥ b)) vec, elapsed⟩,
        sortList (fun a b => decide (a ≥ b)) vec) := by
  simp [mergeSortVector, mergeSort_whole, SortStats.add, SortStats.empty]

theorem natLE_total (a b : Nat) : natLE a b = true ∨ natLE b a = true := by
  simp only [natLE, decide_eq_true_eq]; omega

theorem natLE_trans (a b c : Nat) (hab : natLE a b = true) (hbc : natLE b c = true) :
    natLE a c = true := by
  simp only [natLE, decide_eq_true_eq] at *; omega

theorem filter_sortList (compare : α → α → Bool)
    (htot : ∀ a b, compare a b = true ∨ compare b a = true)
    (htrans : ∀ a b c, compare a b = true → compare b c = true → compare a c = true)
    (v : List α) (x : α) :
    (sortList compare v).filter (fun z => compare x z && compare z x) =
      v.filter (fun z => compare x z && compare z x) := by
  have hp : (v.filter (fun z => compare x z && compare z x)).Pairwise
      (fun a b => compare a b = true) := by
    apply List.Pairwise.imp_mem.mpr
    apply List.pairwise_of_forall
    intro a b ha hb
    have ha2 := (List.mem_filter.mp ha).2
    have hb2 := (List.mem_filter.mp hb).2
    simp only [Bool.and_eq_true] at ha2 hb2
    exact htrans a x b ha2.2 hb2.1
  have hs := sublist_sortList compare htot htrans v.length v _ (Nat.le_refl _) hp
    (List.filter_sublist v)
  have hs2 := hs.filter (fun z => compare x z && compare z x)
  rw [List.filter_filter] at hs2
  simp only [Bool.and_self] at hs2
  have hlen := ((sortList_perm compare v.length v (Nat.le_refl _)).filter
    (fun z => compare x z && compare z x)).length_eq
  exact (hs2.eq_of_length hlen.symm).symm

theorem sortList_chain_le [LinearOrder α] (vec : List α) :
    (sortList (fun a b : α => decide (a ≤ b)) vec).Chain' (fun a b => a ≤ b) := by
  have h := sortList_pairwise (fun a b : α => decide (a ≤ b))
    (fun a b => by simpa using le_total a b)
    (fun a b c hab hbc => by simpa using le_trans (by simpa using hab) (by simpa using hbc))
    vec.length vec (Nat.le_refl _)
  exact (h.imp (fun hab => by simpa using hab)).chain'

theorem sortList_chain_ge [LinearOrder α] (vec : List α) :
    (sortList (fun a b : α => decide (a ≥ b)) vec).Chain' (fun a b => a ≥ b) := by
  have h := sortList_pairwise (fun a b : α => decide (a ≥ b))
    (fun a b => by simpa using le_total b a)
    (fun a b c hab hbc => by simpa using le_trans (by simpa using hbc) (by simpa using hab))
    vec.length vec (Nat.le_refl _)
  exact (h.imp (fun hab => by simpa using hab)).chain'

/-! ## The claims -/

/-- C1: over an element type whose `≤` is a total order, the entry point `mergeSort(vec, ASC)`
returns with the vector non-decreasing (every adjacent pair satisfies `a ≤ b`) and
`mergeSort(vec, DESC)` with the vector non-increasing (every adjacent pair satisfies `a ≥ b`);
`[5, 3, 8, 1, 9, 2]` with ASC becomes `[1, 2, 3, 5, 8, 9]` and `[1, 2, 3]` with DESC becomes
`[3, 2, 1]`. -/
theorem mergeSortVector_ordered [LinearOrder α] (vec : List α) (elapsed : Nat) :
    (∃ stats out, mergeSortVector vec SortOrder.ASC elapsed = some (stats, out) ∧
      out.Chain' (fun a b => a ≤ b)) ∧
    (∃ stats out, mergeSortVector vec SortOrder.DESC elapsed = some (stats, out) ∧
      out.Chain' (fun a b => a ≥ b)) ∧
    (∃ stats, mergeSortVector [5, 3, 8, 1, 9, 2] SortOrder.ASC 0 =
      some (stats, [1, 2, 3, 5, 8, 9])) ∧
    (∃ stats, mergeSortVector [1, 2, 3] SortOrder.DESC 0 = some (stats, [3, 2, 1])) := by
  exact ⟨⟨_, _, mergeSortVector_ASC vec elapsed, sortList_chain_le vec⟩,
    ⟨_, _, mergeSortVector_DESC vec elapsed, sortList_chain_ge vec⟩, ⟨⟨10, 10, 0⟩, by decide⟩,
    ⟨⟨3, 3, 0⟩, by decide⟩⟩

/-- C2: for every sequence and every comparator, with no assumption on the comparator,
`mergeSort(stats, compare, begin, end)` over the whole range returns, and the sequence after
the call is a permutation of the sequence before it. -/
theorem mergeSort_perm (stats : SortStats) (compare : α → α → Bool) (v : List α) :
    ∃ stats1 out, mergeSort stats compare v 0 v.length = some (stats1, out) ∧ out.Perm v :=
  ⟨_, _, mergeSort_whole stats compare v, sortList_perm compare v.length v (Nat.le_refl _)⟩


/-- C3: `mergeSort` is stable.  For a comparator that is total and transitive, the call over the
whole range returns, and (a) two elements `x`, `y` that compare equal (`compare x y` and
`compare y x`) with `x` before `y` in the input have `x` before `y` in the output, (b) for every
`x` the elements that compare equal to `x` appear in the output exactly in their input order.
`[4a, 4b, 1]` compared by number with ASC becomes `[1, 4a, 4b]`. -/
theorem mergeSort_stable (compare : α → α → Bool)
    (htot : ∀ a b, compare a b = true ∨ compare b a = true)
    (htrans : ∀ a b c, compare a b = true → compare b c = true → compare a c = true)
    (stats : SortStats) (v : List α) :
    (∃ stats1 out, mergeSort stats compare v 0 v.length = some (stats1, out) ∧
      (∀ x y, compare x y = true → compare y x = true →
        List.Sublist [x, y] v → List.Sublist [x, y] out) ∧
      (∀ x, out.filter (fun z => compare x z && compare z x) =
        v.filter (fun z => compare x z && compare z x))) ∧
    (∃ stats1, mergeSortVector [Tagged.mk 4 'a', Tagged.mk 4 'b', Tagged.mk 1 'c']
      SortOrder.ASC 0 = some (stats1, [Tagged.mk 1 'c', Tagged.mk 4 'a', Tagged.mk 4 'b'])) := by
  refine ⟨⟨_, _, mergeSort_whole stats compare v, ?_, ?_⟩, ⟨⟨3, 3, 0⟩, by decide⟩⟩
  · intro x y hxy _ hs
    exact sublist_sortList compare htot htrans v.length v [x, y] (Nat.le_refl _)
      (List.pairwise_pair.mpr hxy) hs
  · exact filter_sortList compare htot htrans v

/-- The instance of C3 for the numbers `[2, 1, 2]` under `≤`: the hypotheses hold there. -/
theorem mergeSort_stable_witness :
    (∀ a b, natLE a b = true ∨ natLE b a = true) ∧
    (∀ a b c, natLE a b = true → natLE b c = true → natLE a c = true) ∧
    ((∃ stats1 out, mergeSort SortStats.empty natLE [2, 1, 2] 0 [2, 1, 2].length =
        some (stats1, out) ∧
      (∀ x y, natLE x y = true → natLE y x = true →
        List.Sublist [x, y] [2, 1, 2] → List.Sublist [x, y] out) ∧
      (∀ x, out.filter (fun z => natLE x z && natLE z x) =
        [2, 1, 2].filter (fun z => natLE x z && natLE z x))) ∧
    (∃ stats1, mergeSortVector [Tagged.mk 4 'a', Tagged.mk 4 'b', Tagged.mk 1 'c']
      SortOrder.ASC 0 = some (stats1, [Tagged.mk 1 'c', Tagged.mk 4 'a', Tagged.mk 4 'b']))) :=
  ⟨natLE_total, natLE_trans,
    mergeSort_stable natLE natLE_total natLE_trans SortStats.empty [2, 1, 2]⟩

/-- C4: for a total and transitive comparator and a range of the vector split at `middle`
(`begin ≤ middle ≤ end`) whose two subranges are each sorted under `compare`,
`mergeSortMerge` returns a sequence of exactly `end - begin` elements that is sorted under
`compare` and is a permutation of the concatenation of the two subranges. -/
theorem mergeSortMerge_sorted_perm (compare : α → α → Bool)
    (htot : ∀ a b, compare a b = true ∨ compare b a = true)
    (htrans : ∀ a b c, compare a b = true → compare b c = true → compare a c = true)
    (stats : SortStats) (v : List α) (begin middle end_ : Nat)
    (hbm : begin ≤ middle) (hme : middle ≤ end_) (he : end_ ≤ v.length)
    (hl : (slice v begin middle).Chain' (fun a b => compare a b = true))
    (hr : (slice v middle end_).Chain' (fun a b => compare a b = true)) :
    ∃ stats1 vec, mergeSortMerge stats compare v begin middle end_ = some (stats1, vec) ∧
      vec.length = end_ - begin ∧
      vec.Chain' (fun a b => compare a b = true) ∧
      vec.Perm (slice v begin middle ++ slice v middle end_) := by
  refine ⟨_, _, mergeSortMerge_spec stats compare v begin middle end_ hbm hme he, ?_, ?_, ?_⟩
  · rw [List.length_merge, length_slice v begin middle (by omega), length_slice v middle end_ he]
    omega
  · exact (List.sorted_merge htrans (fun a b => by simpa [Bool.or_eq_true] using htot a b) _ _
      ((chain_iff_pairwise compare htrans _).mp hl)
      ((chain_iff_pairwise compare htrans _).mp hr)).chain'
  · exact List.merge_perm_append compare

/-- The instance of C4 for the vector `[9, 1, 4, 2, 3, 0]` under `≤`, with the runs `[1, 4]` at
positions 1-2 and `[2, 3]` at positions 3-4. -/
theorem mergeSortMerge_sorted_perm_witness :
    (∀ a b, natLE a b = true ∨ natLE b a = true) ∧
    (∀ a b c, natLE a b = true → natLE b c = true → natLE a c = true) ∧
    (slice [9, 1, 4, 2, 3, 0] 1 3).Chain' (fun a b => natLE a b = true) ∧
    (slice [9, 1, 4, 2, 3, 0] 3 5).Chain' (fun a b => natLE a b = true) ∧
    ∃ stats1 vec, mergeSortMerge SortStats.empty natLE [9, 1, 4, 2, 3, 0] 1 3 5 =
        some (stats1, vec) ∧
      vec.length = 5 - 1 ∧
      vec.Chain' (fun a b => natLE a b = true) ∧
      vec.Perm (slice [9, 1, 4, 2, 3, 0] 1 3 ++ slice [9, 1, 4, 2, 3, 0] 3 5) :=
  ⟨natLE_total, natLE_trans, by simp [slice, natLE], by simp [slice, natLE],
    mergeSortMerge_sorted_perm natLE natLE_total natLE_trans SortStats.empty
      [9, 1, 4, 2, 3, 0] 1 3 5 (by decide) (by decide) (by decide)
      (by simp [slice, natLE]) (by simp [slice, natLE])⟩


/-- C5: idempotence.  For a transitive comparator, `mergeSort` over the whole range of a sequence
in which every adjacent pair satisfies the comparator returns with the sequence identical to the
input; and, the comparator being total as well, `mergeSort` applied to the result of `mergeSort`
leaves that result as it is (sorting twice gives the same sequence as sorting once). -/
theorem mergeSort_idempotent (compare : α → α → Bool)
    (htrans : ∀ a b c, compare a b = true → compare b c = true → compare a c = true)
    (stats : SortStats) (v : List α) :
    (v.Chain' (fun a b => compare a b = true) →
      ∃ stats1, mergeSort stats compare v 0 v.length = some (stats1, v)) ∧
    ((∀ a b, compare a b = true ∨ compare b a = true) →
      ∃ stats1 out stats2, mergeSort stats compare v 0 v.length = some (stats1, out) ∧
        mergeSort stats1 compare out 0 out.length = some (stats2, out)) := by
  constructor
  · intro hv
    refine ⟨stats.add (sortCount compare v), ?_⟩
    rw [mergeSort_whole, sortList_of_pairwise compare v.length v (Nat.le_refl _)
      ((chain_iff_pairwise compare htrans v).mp hv)]
  · intro htot
    refine ⟨_, _, (stats.add (sortCount compare v)).add (sortCount compare (sortList compare v)),
      mergeSort_whole stats compare v, ?_⟩
    rw [mergeSort_whole, sortList_of_pairwise compare _ (sortList compare v) (Nat.le_refl _)
      (sortList_pairwise compare htot htrans v.length v (Nat.le_refl _))]

/-- The instance of C5 for the sorted sequence `[1, 2, 2, 5]` and for the unsorted sequence
`[3, 1, 2]`, under `≤` on numbers. -/
theorem mergeSort_idempotent_witness :
    (∀ a b c, natLE a b = true → natLE b c = true → natLE a c = true) ∧
    List.Chain' (fun a b => natLE a b = true) [1, 2, 2, 5] ∧
    (∃ stats1, mergeSort SortStats.empty natLE [1, 2, 2, 5] 0 [1, 2, 2, 5].length =
      some (stats1, [1, 2, 2, 5])) ∧
    (∀ a b, natLE a b = true ∨ natLE b a = true) ∧
    (∃ stats1 out stats2, mergeSort SortStats.empty natLE [3, 1, 2] 0 [3, 1, 2].length =
        some (stats1, out) ∧
      mergeSort stats1 natLE out 0 out.length = some (stats2, out)) :=
  ⟨natLE_trans, by simp [natLE],
    (mergeSort_idempotent natLE natLE_trans SortStats.empty [1, 2, 2, 5]).1 (by simp [natLE]),
    natLE_total,
    (mergeSort_idempotent natLE natLE_trans SortStats.empty [3, 1, 2]).2 natLE_total⟩

/-- C6: for a sequence of length 0 or 1 and either order, the entry point returns with the
sequence unchanged and `comparisons_count = 0`, `swaps_count = 0`. -/
theorem mergeSortVector_short [LE α] [DecidableRel (fun a b : α => a ≤ b)] (vec : List α)
    (order : SortOrder) (elapsed : Nat) (hlen : vec.length ≤ 1)
    (horder : order = SortOrder.ASC ∨ order = SortOrder.DESC) :
    mergeSortVector vec order elapsed =
      some ({ comparisons_count := 0, swaps_count := 0, execution_time := elapsed }, vec) := by
  rcases horder with h | h
  · rw [h, mergeSortVector_ASC, sortCount_of_short _ vec (by omega),
      sortList_of_short _ vec (by omega)]
  · rw [h, mergeSortVector_DESC, sortCount_of_short _ vec (by omega),
      sortList_of_short _ vec (by omega)]

/-- The instances of C6 for the one-element sequence `[7]` with DESC. -/
theorem mergeSortVector_short_witness :
    [7].length ≤ 1 ∧ (SortOrder.DESC = SortOrder.ASC ∨ SortOrder.DESC = SortOrder.DESC) ∧
    mergeSortVector [7] SortOrder.DESC 3 =
      some ({ comparisons_count := 0, swaps_count := 0, execution_time := 3 }, [7]) :=
  ⟨by decide, Or.inr rfl, mergeSortVector_short [7] SortOrder.DESC 3 (by decide) (Or.inr rfl)⟩

/-- C7: for a two-element sequence and either order, the entry point returns
`comparisons_count = 1` and `swaps_count = 1` and leaves the two elements in the requested
order; `[2, 1]` with ASC becomes `[1, 2]` with both counters 1. -/
theorem mergeSortVector_two [LinearOrder α] (a b : α) (elapsed : Nat) :
    (∃ out, mergeSortVector [a, b] SortOrder.ASC elapsed =
        some ({ comparisons_count := 1, swaps_count := 1, execution_time := elapsed }, out) ∧
      out.Chain' (fun x y => x ≤ y) ∧ out.Perm [a, b]) ∧
    (∃ out, mergeSortVector [a, b] SortOrder.DESC elapsed =
        some ({ comparisons_count := 1, swaps_count := 1, execution_time := elapsed }, out) ∧
      out.Chain' (fun x y => x ≥ y) ∧ out.Perm [a, b]) ∧
    mergeSortVector [2, 1] SortOrder.ASC 0 =
      some ({ comparisons_count := 1, swaps_count := 1, execution_time := 0 }, [1, 2]) := by
  have hc : ∀ compare : α → α → Bool, sortCount compare [a, b] = 1 := by
    intro compare
    have h := sortCount_append compare [a] [b] (by simp) (by simp)
    rw [sortCount_of_short compare [a] (by simp), sortCount_of_short compare [b] (by simp),
      sortList_of_short compare [a] (by simp), sortList_of_short compare [b] (by simp),
      mergeCount_cons_cons, mergeCount_nil_right, mergeCount] at h
    simpa using h
  have hp : ∀ compare : α → α → Bool, (sortList compare [a, b]).Perm [a, b] :=
    fun compare => sortList_perm compare _ _ (Nat.le_refl _)
  refine ⟨⟨sortList (fun x y => decide (x ≤ y)) [a, b], ?_, sortList_chain_le [a, b], hp _⟩,
    ⟨sortList (fun x y => decide (x ≥ y)) [a, b], ?_, sortList_chain_ge [a, b], hp _⟩,
    by decide⟩
  · rw [mergeSortVector_ASC, hc]
  · rw [mergeSortVector_DESC, hc]

/-- C8: for every sequence of size `n` and every comparator, `mergeSort` over the whole range
from zeroed statistics returns with `swaps_count` and `comparisons_count` at most
`n * ⌈log₂ n⌉`; that bound is 0 for `n = 0` and for `n = 1`. -/
theorem mergeSort_count_bound (compare : α → α → Bool) (v : List α) :
    (∃ stats out, mergeSort SortStats.empty compare v 0 v.length = some (stats, out) ∧
      stats.swaps_count ≤ v.length * Nat.clog 2 v.length ∧
      stats.comparisons_count ≤ v.length * Nat.clog 2 v.length) ∧
    0 * Nat.clog 2 0 = 0 ∧ 1 * Nat.clog 2 1 = 0 := by
  refine ⟨⟨_, _, mergeSort_whole SortStats.empty compare v, ?_, ?_⟩, by simp, by simp⟩
  · simpa [SortStats.add, SortStats.empty] using sortCount_le compare v.length v (Nat.le_refl _)
  · simpa [SortStats.add, SortStats.empty] using sortCount_le compare v.length v (Nat.le_refl _)

/-- C9: for an order value that is neither ASC nor DESC, the entry point returns with the
sequence identical to the input and `comparisons_count = 0`, `swaps_count = 0`. -/
theorem mergeSortVector_other_order [LE α] [DecidableRel (fun a b : α => a ≤ b)]
    (vec : List α) (order : SortOrder) (elapsed : Nat)
    (hasc : order ≠ SortOrder.ASC) (hdesc : order ≠ SortOrder.DESC) :
    mergeSortVector vec order elapsed =
      some ({ comparisons_count := 0, swaps_count := 0, execution_time := elapsed }, vec) := by
  simp [mergeSortVector, hasc, hdesc, SortStats.empty]

/-- The instance of C9 for the unsorted sequence `[3, 1, 2]` and the order value `other 2`. -/
theorem mergeSortVector_other_order_witness :
    SortOrder.other 2 ≠ SortOrder.ASC ∧ SortOrder.other 2 ≠ SortOrder.DESC ∧
    mergeSortVector [3, 1, 2] (SortOrder.other 2) 5 =
      some ({ comparisons_count := 0, swaps_count := 0, execution_time := 5 }, [3, 1, 2]) :=
  ⟨by decide, by decide,
    mergeSortVector_other_order [3, 1, 2] (SortOrder.other 2) 5 (by decide) (by decide)⟩


/-! ## The log of merge calls -/

/-- Each iteration of the loop pushes one element and adds one to `swaps_count`. -/
theorem mergeLoop_length (compare : α → α → Bool) (v : List α) (middle end_ : Nat) :
    ∀ (fuel : Nat) (s t : MergeState α), mergeLoop compare v middle end_ fuel s = some t →
      t.vec.length + s.stats.swaps_count = s.vec.length + t.stats.swaps_count := by
  intro fuel
  induction fuel with
  | zero => intro s t h; simp [mergeLoop] at h
  | succ fuel ih =>
    intro s t h
    rw [mergeLoop] at h
    split at h
    · split at h
      · simp only at h
        split at h
        · have h2 := ih _ t h
          simp only [List.length_append, List.length_singleton] at h2
          omega
        · have h2 := ih _ t h
          simp only [List.length_append, List.length_singleton] at h2
          omega
      · exact absurd h (by simp)
    · simp only [Option.some.injEq] at h
      rw [h]

theorem mergeSortMergeTraced_spec (stats : SortStats) (compare : α → α → Bool) (v : List α)
    (begin middle end_ : Nat) (hbm : begin ≤ middle) (hme : middle ≤ end_)
    (he : end_ ≤ v.length) :
    mergeSortMergeTraced stats compare v begin middle end_ =
      some (stats.add (mergeCount compare (slice v begin middle) (slice v middle end_)),
        List.merge (slice v begin middle) (slice v middle end_) compare,
        { begin := begin, middle := middle, end_ := end_
          pushed := mergeCount compare (slice v begin middle) (slice v middle end_)
          inserted := end_ - begin -
            mergeCount compare (slice v begin middle) (slice v middle end_) }) := by
  obtain ⟨t, h1, h2, h3, -, h5, h6⟩ :=
    mergeLoop_spec compare v middle end_ (by omega) he (end_ - begin + 1)
      ⟨[], begin, middle, stats⟩ hbm hme (by simp only; omega)
  have hlen := mergeLoop_length compare v middle end_ _ _ t h1
  simp only [List.length_nil, Nat.zero_add] at hlen
  rw [h6] at hlen
  simp only [SortStats.add] at hlen
  have hpushed : t.vec.length =
      mergeCount compare (slice v begin middle) (slice v middle end_) := by omega
  simp only [List.nil_append] at h5
  have htotal := congrArg List.length h5
  simp only [List.length_append, List.length_merge] at htotal
  rw [length_slice v begin middle (by omega), length_slice v middle end_ he] at htotal
  simp only [mergeSortMergeTraced, h1, Option.bind_eq_bind, Option.some_bind,
    range_eq_some v t.left middle h2 (by omega), range_eq_some v t.right end_ h3 he]
  rw [h5, h6, hpushed]
  congr 4
  omega

theorem sum_map_add (calls : List MergeCall) (f g h : MergeCall → Nat)
    (hc : ∀ c ∈ calls, f c + g c = h c) :
    (calls.map f).sum + (calls.map g).sum = (calls.map h).sum := by
  induction calls with
  | nil => rfl
  | cons c cs ih =>
    have h1 := hc c (List.mem_cons_self c cs)
    have h2 := ih (fun d hd => hc d (List.mem_cons_of_mem c hd))
    simp only [List.map_cons, List.sum_cons]
    omega


/-- The function `mergeSort` with the log returns what `mergeSort` returns (`mergeSortFuel_spec`)
and appends to the log one record per merge call: the pushed elements of the records add up to
the growth of the counters, and every record accounts for the `end - begin` elements of its
output buffer, at least one of them appended by the tail inserts. -/
theorem mergeSortTracedFuel_spec (compare : α → α → Bool) :
    ∀ (fuel : Nat) (stats : SortStats) (log : List MergeCall) (pre l post : List α),
      l.length < fuel →
      ∃ calls, mergeSortTracedFuel compare fuel stats log (pre ++ l ++ post) pre.length
          (pre.length + l.length) =
          some (stats.add (sortCount compare l), log ++ calls,
            pre ++ sortList compare l ++ post) ∧
        (calls.map MergeCall.pushed).sum = sortCount compare l ∧
        ∀ c ∈ calls, c.pushed + c.inserted = c.end_ - c.begin ∧ 1 ≤ c.inserted := by
  intro fuel
  induction fuel with
  | zero => intro _ _ _ _ _ h; omega
  | succ fuel ih =>
    intro stats log pre l post hf
    have hsub : pre.length + l.length - pre.length = l.length := by omega
    by_cases h2 : 2 ≤ l.length
    · obtain ⟨l1, l2, rfl, hl1⟩ := split_half l
      have hlen : (l1 ++ l2).length = l1.length + l2.length := List.length_append _ _
      have hs1 := length_sortList compare l1
      have hs2 := length_sortList compare l2
      obtain ⟨calls1, e1, p1, q1⟩ := ih stats log pre l1 (l2 ++ post) (by omega)
      obtain ⟨calls2, e2, p2, q2⟩ := ih (stats.add (sortCount compare l1)) (log ++ calls1)
        (pre ++ sortList compare l1) l2 post (by omega)
      rw [hl1] at e1
      simp only [← List.append_assoc] at e1
      rw [List.length_append, hs1, Nat.add_assoc, ← hlen, hl1] at e2
      have hm := mergeCount_le compare (sortList compare l1) (sortList compare l2)
      rw [hs1, hs2] at hm
      have s1 : slice (pre ++ sortList compare l1 ++ sortList compare l2 ++ post) pre.length
          (pre.length + (l1 ++ l2).length / 2) = sortList compare l1 := by
        have h := slice_append_mid pre (sortList compare l1) (sortList compare l2 ++ post)
        rw [hs1, hl1] at h
        simpa only [List.append_assoc] using h
      have s2 : slice (pre ++ sortList compare l1 ++ sortList compare l2 ++ post)
          (pre.length + (l1 ++ l2).length / 2) (pre.length + (l1 ++ l2).length) =
          sortList compare l2 := by
        have h := slice_append_mid (pre ++ sortList compare l1) (sortList compare l2) post
        rw [List.length_append, hs1, hs2, Nat.add_assoc] at h
        rw [← hl1, hlen]
        exact h
      have e3 := mergeSortMergeTraced_spec
        ((stats.add (sortCount compare l1)).add (sortCount compare l2)) compare
        (pre ++ sortList compare l1 ++ sortList compare l2 ++ post) pre.length
        (pre.length + (l1 ++ l2).length / 2) (pre.length + (l1 ++ l2).length)
        (by omega) (by omega) (by simp only [List.length_append]; omega)
      rw [s1, s2, ← sortList_append compare l1 l2 h2 hl1, SortStats.add_add, SortStats.add_add,
        Nat.add_assoc, ← Nat.add_assoc (sortCount compare l1),
        ← sortCount_append compare l1 l2 h2 hl1] at e3
      have e4 : move (sortList compare (l1 ++ l2))
          (pre ++ sortList compare l1 ++ sortList compare l2 ++ post) pre.length =
          some (pre ++ sortList compare (l1 ++ l2) ++ post) := by
        have h := move_spec post (sortList compare (l1 ++ l2)) pre
          (sortList compare l1 ++ sortList compare l2)
          (by rw [length_sortList, List.length_append, List.length_append, hs1, hs2])
        simpa only [List.append_assoc] using h
      refine ⟨calls1 ++ calls2 ++
        [{ begin := pre.length, middle := pre.length + (l1 ++ l2).length / 2
           end_ := pre.length + (l1 ++ l2).length
           pushed := mergeCount compare (sortList compare l1) (sortList compare l2)
           inserted := pre.length + (l1 ++ l2).length - pre.length -
             mergeCount compare (sortList compare l1) (sortList compare l2) }], ?_, ?_, ?_⟩
      · simp only [List.append_assoc, SortStats.add_add, hsub] at e1 e2 e3 e4
        simp only [mergeSortTracedFuel, hsub, ge_iff_le, h2, if_true, e1, e2, e3, e4,
          Option.bind_eq_bind, Option.some_bind, List.append_assoc, SortStats.add_add]
      · simp only [List.map_append, List.sum_append, List.map_cons, List.map_nil,
          List.sum_cons, List.sum_nil, p1, p2, sortCount_append compare l1 l2 h2 hl1]
        omega
      · intro c hc
        simp only [List.mem_append, List.mem_singleton] at hc
        rcases hc with (hc | hc) | hc
        · exact q1 c hc
        · exact q2 c hc
        · rw [hc]
          simp only
          omega
    · refine ⟨[], ?_, ?_, ?_⟩
      · simp only [mergeSortTracedFuel, hsub, ge_iff_le, h2, if_false,
          sortList_of_short compare l h2, sortCount_of_short compare l h2, SortStats.add_zero,
          List.append_nil]
      · rw [sortCount_of_short compare l h2]; rfl
      · intro c hc; simp at hc

theorem mergeSortTraced_spec (stats : SortStats) (compare : α → α → Bool) (v : List α) :
    ∃ calls, mergeSortTraced stats compare v 0 v.length =
        some (stats.add (sortCount compare v), calls, sortList compare v) ∧
      (calls.map MergeCall.pushed).sum = sortCount compare v ∧
      ∀ c ∈ calls, c.pushed + c.inserted = c.end_ - c.begin ∧ 1 ≤ c.inserted := by
  obtain ⟨calls, h, hp, hq⟩ :=
    mergeSortTracedFuel_spec compare (v.length + 1) stats [] [] v [] (by omega)
  refine ⟨calls, ?_, hp, hq⟩
  simpa [mergeSortTraced] using h


/-- C10, as stated, fails on `[2, 1]` with `≤`: the sort makes one call of `mergeSortMerge`, on
the range `[0, 2)`, whose output buffer receives 2 elements, and returns `swaps_count = 1`. -/
theorem swaps_count_counterexample :
    ∃ stats calls out,
      mergeSortTraced SortStats.empty natLE [2, 1] 0 [2, 1].length = some (stats, calls, out) ∧
      mergeSort SortStats.empty natLE [2, 1] 0 [2, 1].length = some (stats, out) ∧
      stats.swaps_count = 1 ∧
      (calls.map (fun c => c.end_ - c.begin)).sum = 2 ∧
      stats.swaps_count ≠ (calls.map (fun c => c.end_ - c.begin)).sum :=
  ⟨⟨1, 1, 0⟩, [⟨0, 1, 2, 1, 1⟩], [1, 2], by decide, by decide, by decide, by decide, by decide⟩

/-- C10, amended: `swaps_count` counts the elements placed by the comparison loop of the merges
only.  After `mergeSort` over the whole range from zeroed statistics, `swaps_count` is the sum
over every `mergeSortMerge` call of the number of elements its loop pushed; each call's output
buffer of `end - begin` elements consists of those and of the elements appended by the tail
inserts, at least one per call, which are not counted: `swaps_count` plus the number of
appended elements is the sum of `end - begin` over the calls. -/
theorem swaps_count_eq_pushed (compare : α → α → Bool) (v : List α) :
    ∃ stats calls out,
      mergeSortTraced SortStats.empty compare v 0 v.length = some (stats, calls, out) ∧
      mergeSort SortStats.empty compare v 0 v.length = some (stats, out) ∧
      stats.swaps_count = (calls.map MergeCall.pushed).sum ∧
      (∀ c ∈ calls, c.pushed + c.inserted = c.end_ - c.begin ∧ 1 ≤ c.inserted) ∧
      stats.swaps_count + (calls.map MergeCall.inserted).sum =
        (calls.map (fun c => c.end_ - c.begin)).sum := by
  obtain ⟨calls, h, hp, hq⟩ := mergeSortTraced_spec SortStats.empty compare v
  have hs : (SortStats.empty.add (sortCount compare v)).swaps_count =
      (calls.map MergeCall.pushed).sum := by
    rw [hp]; simp [SortStats.add, SortStats.empty]
  refine ⟨_, calls, _, h, mergeSort_whole SortStats.empty compare v, hs, hq, ?_⟩
  rw [hs]
  exact sum_map_add calls MergeCall.pushed MergeCall.inserted (fun c => c.end_ - c.begin)
    (fun c hc => (hq c hc).1)


/-! ## The merge calls of a sort, call by call -/

theorem sortCalls_of_short (compare : α → α → Bool) (b : Nat) (l : List α)
    (h : ¬ 2 ≤ l.length) : sortCalls compare b l = [] := by
  rw [sortCalls, dif_neg h]

theorem sortCalls_append (compare : α → α → Bool) (b : Nat) (l1 l2 : List α)
    (h2 : 2 ≤ (l1 ++ l2).length) (hl1 : l1.length = (l1 ++ l2).length / 2) :
    sortCalls compare b (l1 ++ l2) =
      sortCalls compare b l1 ++ sortCalls compare (b + (l1 ++ l2).length / 2) l2 ++
        [{ begin := b, middle := b + (l1 ++ l2).length / 2, end_ := b + (l1 ++ l2).length
           pushed := mergeCount compare (sortList compare l1) (sortList compare l2)
           inserted := (l1 ++ l2).length -
             mergeCount compare (sortList compare l1) (sortList compare l2) }] := by
  have ht : (l1 ++ l2).take ((l1 ++ l2).length / 2) = l1 := by rw [← hl1, List.take_left]
  have hd : (l1 ++ l2).drop ((l1 ++ l2).length / 2) = l2 := by rw [← hl1, List.drop_left]
  rw [sortCalls, dif_pos h2, ht, hd]

/-- The log of `mergeSort`, call by call: on the range holding `l` from position `pre.length`
the calls appended to the log are exactly `sortCalls compare pre.length l`. -/
theorem mergeSortTracedFuel_calls (compare : α → α → Bool) :
    ∀ (fuel : Nat) (stats : SortStats) (log : List MergeCall) (pre l post : List α),
      l.length < fuel →
      mergeSortTracedFuel compare fuel stats log (pre ++ l ++ post) pre.length
          (pre.length + l.length) =
        some (stats.add (sortCount compare l), log ++ sortCalls compare pre.length l,
          pre ++ sortList compare l ++ post) := by
  intro fuel
  induction fuel with
  | zero => intro _ _ _ _ _ h; omega
  | succ fuel ih =>
    intro stats log pre l post hf
    have hsub : pre.length + l.length - pre.length = l.length := by omega
    by_cases h2 : 2 ≤ l.length
    · obtain ⟨l1, l2, rfl, hl1⟩ := split_half l
      have hlen : (l1 ++ l2).length = l1.length + l2.length := List.length_append _ _
      have hs1 := length_sortList compare l1
      have hs2 := length_sortList compare l2
      have e1 := ih stats log pre l1 (l2 ++ post) (by omega)
      have e2 := ih (stats.add (sortCount compare l1)) (log ++ sortCalls compare pre.length l1)
        (pre ++ sortList compare l1) l2 post (by omega)
      rw [hl1] at e1
      rw [List.length_append, hs1, Nat.add_assoc, ← hlen, hl1] at e2
      have s1 : slice (pre ++ sortList compare l1 ++ sortList compare l2 ++ post) pre.length
          (pre.length + (l1 ++ l2).length / 2) = sortList compare l1 := by
        have h := slice_append_mid pre (sortList compare l1) (sortList compare l2 ++ post)
        rw [hs1, hl1] at h
        simpa only [List.append_assoc] using h
      have s2 : slice (pre ++ sortList compare l1 ++ sortList compare l2 ++ post)
          (pre.length + (l1 ++ l2).length / 2) (pre.length + (l1 ++ l2).length) =
          sortList compare l2 := by
        have h := slice_append_mid (pre ++ sortList compare l1) (sortList compare l2) post
        rw [List.length_append, hs1, hs2, Nat.add_assoc] at h
        rw [← hl1, hlen]
        exact h
      have e3 := mergeSortMergeTraced_spec
        ((stats.add (sortCount compare l1)).add (sortCount compare l2)) compare
        (pre ++ sortList compare l1 ++ sortList compare l2 ++ post) pre.length
        (pre.length + (l1 ++ l2).length / 2) (pre.length + (l1 ++ l2).length)
        (by omega) (by omega) (by simp only [List.length_append]; omega)
      rw [s1, s2, ← sortList_append compare l1 l2 h2 hl1, SortStats.add_add, SortStats.add_add,
        Nat.add_assoc, ← Nat.add_assoc (sortCount compare l1),
        ← sortCount_append compare l1 l2 h2 hl1] at e3
      have e4 : move (sortList compare (l1 ++ l2))
          (pre ++ sortList compare l1 ++ sortList compare l2 ++ post) pre.length =
          some (pre ++ sortList compare (l1 ++ l2) ++ post) := by
        have h := move_spec post (sortList compare (l1 ++ l2)) pre
          (sortList compare l1 ++ sortList compare l2)
          (by rw [length_sortList, List.length_append, List.length_append, hs1, hs2])
        simpa only [List.append_assoc] using h
      rw [sortCalls_append compare pre.length l1 l2 h2 hl1]
      simp only [List.append_assoc, SortStats.add_add, hsub] at e1 e2 e3 e4
      simp only [mergeSortTracedFuel, hsub, ge_iff_le, h2, if_true, e1, e2, e3, e4,
        Option.bind_eq_bind, Option.some_bind, List.append_assoc, SortStats.add_add]
    · simp only [mergeSortTracedFuel, hsub, ge_iff_le, h2, if_false,
        sortList_of_short compare l h2, sortCount_of_short compare l h2,
        sortCalls_of_short compare pre.length l h2, SortStats.add_zero, List.append_nil]

theorem mergeSortTraced_calls (stats : SortStats) (compare : α → α → Bool) (v : List α) :
    mergeSortTraced stats compare v 0 v.length =
      some (stats.add (sortCount compare v), sortCalls compare 0 v, sortList compare v) := by
  have h := mergeSortTracedFuel_calls compare (v.length + 1) stats [] [] v [] (by omega)
  simpa [mergeSortTraced] using h

/-- Every call of `sortCalls` is on a range inside the sorted range, of at least two positions,
split at `begin + (end - begin) / 2`. -/
theorem sortCalls_split (compare : α → α → Bool) :
    ∀ (n b : Nat) (l : List α), l.length ≤ n → ∀ c ∈ sortCalls compare b l,
      b ≤ c.begin ∧ c.end_ ≤ b + l.length ∧ 2 ≤ c.end_ - c.begin ∧
      c.middle = c.begin + (c.end_ - c.begin) / 2 := by
  intro n
  induction n with
  | zero =>
    intro b l h c hc
    rw [sortCalls_of_short compare b l (by omega)] at hc
    simp at hc
  | succ n ih =>
    intro b l h c hc
    by_cases h2 : 2 ≤ l.length
    · obtain ⟨l1, l2, rfl, hl1⟩ := split_half l
      have hlen : (l1 ++ l2).length = l1.length + l2.length := List.length_append _ _
      rw [sortCalls_append compare b l1 l2 h2 hl1] at hc
      simp only [List.mem_append, List.mem_singleton] at hc
      rcases hc with (hc | hc) | hc
      · have h1 := ih b l1 (by omega) c hc
        omega
      · have h1 := ih (b + (l1 ++ l2).length / 2) l2 (by omega) c hc
        omega
      · rw [hc]
        simp only
        omega
    · rw [sortCalls_of_short compare b l h2] at hc
      simp at hc


theorem sortCalls_whole_mem (compare : α → α → Bool) (b : Nat) (l : List α)
    (h2 : 2 ≤ l.length) :
    ∃ c ∈ sortCalls compare b l, c.begin = b ∧ c.end_ = b + l.length := by
  obtain ⟨l1, l2, rfl, hl1⟩ := split_half l
  rw [sortCalls_append compare b l1 l2 h2 hl1]
  exact ⟨_, List.mem_append_right _ (List.mem_singleton_self _), rfl, rfl⟩

/-- C11, as stated, fails on the three-element sequence `[3, 1, 2]`: the call on the whole
range `[0, 3)` splits at `middle = 1`, so the left half has 1 element, not `(3 + 1) / 2 = 2`,
and the right half has 2 elements, not `(3 - 1) / 2 = 1`. -/
theorem split_odd_counterexample :
    ∃ stats calls out c,
      mergeSortTraced SortStats.empty natLE [3, 1, 2] 0 [3, 1, 2].length =
        some (stats, calls, out) ∧
      c ∈ calls ∧ c.begin = 0 ∧ c.end_ = 3 ∧ c.middle = 0 + (3 - 0) / 2 ∧
      c.middle - c.begin = 1 ∧ c.end_ - c.middle = 2 ∧
      c.middle - c.begin ≠ (3 + 1) / 2 ∧ c.end_ - c.middle ≠ (3 - 1) / 2 :=
  ⟨⟨3, 3, 0⟩, [⟨1, 2, 3, 1, 1⟩, ⟨0, 1, 3, 2, 1⟩], [1, 2, 3], ⟨0, 1, 3, 2, 1⟩,
    by decide, by decide, by decide, by decide, by decide, by decide, by decide, by decide,
    by decide⟩

/-- C11, amended: every range that `mergeSort` splits is split at
`middle = begin + (end - begin) / 2`, and when its length `n` is odd the right half
`[middle, end)` gets the extra element: the left half has `(n - 1) / 2` elements and the right
half has `(n + 1) / 2`.  The whole range is one of the split ranges as soon as it has two
elements. -/
theorem split_right_gets_extra (stats : SortStats) (compare : α → α → Bool) (v : List α) :
    ∃ stats1 calls out,
      mergeSortTraced stats compare v 0 v.length = some (stats1, calls, out) ∧
      mergeSort stats compare v 0 v.length = some (stats1, out) ∧
      (∀ c ∈ calls, c.middle = c.begin + (c.end_ - c.begin) / 2 ∧
        ((c.end_ - c.begin) % 2 = 1 →
          c.middle - c.begin = (c.end_ - c.begin - 1) / 2 ∧
          c.end_ - c.middle = (c.end_ - c.begin + 1) / 2)) ∧
      (2 ≤ v.length → ∃ c ∈ calls, c.begin = 0 ∧ c.end_ = v.length) := by
  refine ⟨_, _, _, mergeSortTraced_calls stats compare v, mergeSort_whole stats compare v,
    ?_, ?_⟩
  · intro c hc
    have h := sortCalls_split compare v.length 0 v (Nat.le_refl _) c hc
    refine ⟨h.2.2.2, ?_⟩
    intro hodd
    omega
  · intro h2
    simpa using sortCalls_whole_mem compare 0 v h2


/-! ## Ranges inside a larger vector -/

theorem take_slice_drop (v : List α) (begin end_ : Nat) (hbe : begin ≤ end_) :
    v.take begin ++ slice v begin end_ ++ v.drop end_ = v := by
  have hd : v.drop end_ = (v.drop begin).drop (end_ - begin) := by
    rw [List.drop_drop]; congr 1; omega
  rw [slice, hd, List.append_assoc, List.take_append_drop, List.take_append_drop]

/-- On a range `[begin, end)` of the vector, `mergeSortFuel` with any recursion budget above
`end - begin` returns: the range holds the sorted list of its former contents, every other
position is as before, and both counters have grown by the number of comparisons. -/
theorem mergeSortFuel_range (compare : α → α → Bool) (fuel : Nat) (stats : SortStats)
    (v : List α) (begin end_ : Nat) (hbe : begin ≤ end_) (he : end_ ≤ v.length)
    (hf : end_ - begin < fuel) :
    mergeSortFuel compare fuel stats v begin end_ =
      some (stats.add (sortCount compare (slice v begin end_)),
        v.take begin ++ sortList compare (slice v begin end_) ++ v.drop end_) := by
  have hl : (slice v begin end_).length = end_ - begin := length_slice v begin end_ he
  have ht : (v.take begin).length = begin := by rw [List.length_take]; omega
  have h := mergeSortFuel_spec compare fuel stats (v.take begin) (slice v begin end_)
    (v.drop end_) (by omega)
  rw [take_slice_drop v begin end_ hbe, ht, hl] at h
  have hend : begin + (end_ - begin) = end_ := by omega
  rw [hend] at h
  exact h

theorem mergeSort_range (stats : SortStats) (compare : α → α → Bool) (v : List α)
    (begin end_ : Nat) (hbe : begin ≤ end_) (he : end_ ≤ v.length) :
    mergeSort stats compare v begin end_ =
      some (stats.add (sortCount compare (slice v begin end_)),
        v.take begin ++ sortList compare (slice v begin end_) ++ v.drop end_) :=
  mergeSortFuel_range compare _ stats v begin end_ hbe he (by omega)


/-! ## The right-half-first variant -/

/-- The right-half-first variant computes what `mergeSortFuel` computes
(`mergeSortFuel_spec`): the same vector and the same counters. -/
theorem mergeSortRightFirstFuel_spec (compare : α → α → Bool) :
    ∀ (fuel : Nat) (stats : SortStats) (pre l post : List α), l.length < fuel →
      mergeSortRightFirstFuel compare fuel stats (pre ++ l ++ post) pre.length
          (pre.length + l.length) =
        some (stats.add (sortCount compare l), pre ++ sortList compare l ++ post) := by
  intro fuel
  induction fuel with
  | zero => intro _ _ _ _ h; omega
  | succ fuel ih =>
    intro stats pre l post hf
    have hsub : pre.length + l.length - pre.length = l.length := by omega
    by_cases h2 : 2 ≤ l.length
    · obtain ⟨l1, l2, rfl, hl1⟩ := split_half l
      have hlen : (l1 ++ l2).length = l1.length + l2.length := List.length_append _ _
      have hs1 := length_sortList compare l1
      have hs2 := length_sortList compare l2
      have e1 := ih stats (pre ++ l1) l2 post (by omega)
      rw [List.length_append, Nat.add_assoc, ← hlen, hl1] at e1
      have e2 := ih (stats.add (sortCount compare l2)) pre l1 (sortList compare l2 ++ post)
        (by omega)
      rw [hl1] at e2
      have s1 : slice (pre ++ sortList compare l1 ++ sortList compare l2 ++ post) pre.length
          (pre.length + (l1 ++ l2).length / 2) = sortList compare l1 := by
        have h := slice_append_mid pre (sortList compare l1) (sortList compare l2 ++ post)
        rw [hs1, hl1] at h
        simpa only [List.append_assoc] using h
      have s2 : slice (pre ++ sortList compare l1 ++ sortList compare l2 ++ post)
          (pre.length + (l1 ++ l2).length / 2) (pre.length + (l1 ++ l2).length) =
          sortList compare l2 := by
        have h := slice_append_mid (pre ++ sortList compare l1) (sortList compare l2) post
        rw [List.length_append, hs1, hs2, Nat.add_assoc] at h
        rw [← hl1, hlen]
        exact h
      have e3 := mergeSortMerge_spec
        ((stats.add (sortCount compare l2)).add (sortCount compare l1)) compare
        (pre ++ sortList compare l1 ++ sortList compare l2 ++ post) pre.length
        (pre.length + (l1 ++ l2).length / 2) (pre.length + (l1 ++ l2).length)
        (by omega) (by omega) (by simp only [List.length_append]; omega)
      rw [s1, s2, ← sortList_append compare l1 l2 h2 hl1, SortStats.add_add, SortStats.add_add,
        Nat.add_comm (sortCount compare l2), ← sortCount_append compare l1 l2 h2 hl1] at e3
      have e4 : move (sortList compare (l1 ++ l2))
          (pre ++ sortList compare l1 ++ sortList compare l2 ++ post) pre.length =
          some (pre ++ sortList compare (l1 ++ l2) ++ post) := by
        have h := move_spec post (sortList compare (l1 ++ l2)) pre
          (sortList compare l1 ++ sortList compare l2)
          (by rw [length_sortList, List.length_append, List.length_append, hs1, hs2])
        simpa only [List.append_assoc] using h
      simp only [List.append_assoc, SortStats.add_add, hsub] at e1 e2 e3 e4
      rw [Nat.add_comm (sortCount compare l1) (sortCount compare l2)] at e3
      simp only [mergeSortRightFirstFuel, hsub, ge_iff_le, h2, if_true, e1, e2, e3, e4,
        Option.bind_eq_bind, Option.some_bind, List.append_assoc, SortStats.add_add]
    · simp only [mergeSortRightFirstFuel, hsub, ge_iff_le, h2, if_false,
        sortList_of_short compare l h2, sortCount_of_short compare l h2, SortStats.add_zero]

theorem mergeSortRightFirst_range (stats : SortStats) (compare : α → α → Bool) (v : List α)
    (begin end_ : Nat) (hbe : begin ≤ end_) (he : end_ ≤ v.length) :
    mergeSortRightFirst stats compare v begin end_ =
      some (stats.add (sortCount compare (slice v begin end_)),
        v.take begin ++ sortList compare (slice v begin end_) ++ v.drop end_) := by
  have hl : (slice v begin end_).length = end_ - begin := length_slice v begin end_ he
  have ht : (v.take begin).length = begin := by rw [List.length_take]; omega
  have h := mergeSortRightFirstFuel_spec compare (end_ - begin + 1) stats (v.take begin)
    (slice v begin end_) (v.drop end_) (by omega)
  rw [take_slice_drop v begin end_ hbe, ht, hl] at h
  have hend : begin + (end_ - begin) = end_ := by omega
  rw [hend] at h
  exact h


/-- C12: on a range of the vector, for every comparator and every initial statistics record,
`mergeSortMerge` returns with `comparisons_count` and `swaps_count` increased by the same
amount, and so does `mergeSort`; hence `mergeSort` from zeroed statistics, and the entry point
for every order, return `comparisons_count = swaps_count`. -/
theorem counters_grow_together (stats : SortStats) (compare : α → α → Bool) (v : List α)
    (begin middle end_ : Nat) (hbm : begin ≤ middle) (hme : middle ≤ end_)
    (he : end_ ≤ v.length) :
    (∃ stats1 vec k, mergeSortMerge stats compare v begin middle end_ = some (stats1, vec) ∧
      stats1.comparisons_count = stats.comparisons_count + k ∧
      stats1.swaps_count = stats.swaps_count + k) ∧
    (∃ stats1 out k, mergeSort stats compare v begin end_ = some (stats1, out) ∧
      stats1.comparisons_count = stats.comparisons_count + k ∧
      stats1.swaps_count = stats.swaps_count + k) ∧
    (∃ stats1 out, mergeSort SortStats.empty compare v 0 v.length = some (stats1, out) ∧
      stats1.comparisons_count = stats1.swaps_count) ∧
    (∀ (β : Type) [LE β] [DecidableRel (fun a b : β => a ≤ b)] (vec : List β)
      (order : SortOrder) (elapsed : Nat),
      ∃ stats1 out, mergeSortVector vec order elapsed = some (stats1, out) ∧
        stats1.comparisons_count = stats1.swaps_count) := by
  refine ⟨⟨_, _, _, mergeSortMerge_spec stats compare v begin middle end_ hbm hme he, rfl, rfl⟩,
    ⟨_, _, _, mergeSort_range stats compare v begin end_ (by omega) he, rfl, rfl⟩,
    ⟨_, _, mergeSort_whole SortStats.empty compare v, rfl⟩, ?_⟩
  intro β _ _ vec order elapsed
  cases order with
  | ASC => exact ⟨_, _, mergeSortVector_ASC vec elapsed, rfl⟩
  | DESC => exact ⟨_, _, mergeSortVector_DESC vec elapsed, rfl⟩
  | other raw => exact ⟨⟨0, 0, elapsed⟩, vec, by simp [mergeSortVector, SortStats.empty], rfl⟩

/-- The instance of C12 for the vector `[9, 1, 4, 2, 3, 0]` under `≤`, the range `[1, 5)` split
at 3, and a statistics record that starts at 7 comparisons and 2 swaps. -/
theorem counters_grow_together_witness :
    (1 ≤ 3 ∧ 3 ≤ 5 ∧ 5 ≤ [9, 1, 4, 2, 3, 0].length) ∧
    (∃ stats1 vec k, mergeSortMerge ⟨7, 2, 0⟩ natLE [9, 1, 4, 2, 3, 0] 1 3 5 =
        some (stats1, vec) ∧
      stats1.comparisons_count = 7 + k ∧ stats1.swaps_count = 2 + k) ∧
    (∃ stats1 out k, mergeSort ⟨7, 2, 0⟩ natLE [9, 1, 4, 2, 3, 0] 1 5 = some (stats1, out) ∧
      stats1.comparisons_count = 7 + k ∧ stats1.swaps_count = 2 + k) :=
  ⟨by decide,
    (counters_grow_together ⟨7, 2, 0⟩ natLE [9, 1, 4, 2, 3, 0] 1 3 5
      (by decide) (by decide) (by decide)).1,
    (counters_grow_together ⟨7, 2, 0⟩ natLE [9, 1, 4, 2, 3, 0] 1 3 5
      (by decide) (by decide) (by decide)).2.1⟩

/-- C13: the two recursive sub-sorts are independent.  On every range of the vector and for
every comparator, the variant that sorts the right half before the left half at every level
returns exactly what `mergeSort` returns: the same final sequence and the same
`comparisons_count` and `swaps_count`. -/
theorem mergeSortRightFirst_eq_mergeSort (stats : SortStats) (compare : α → α → Bool)
    (v : List α) (begin end_ : Nat) (hbe : begin ≤ end_) (he : end_ ≤ v.length) :
    ∃ stats1 out, mergeSort stats compare v begin end_ = some (stats1, out) ∧
      mergeSortRightFirst stats compare v begin end_ = some (stats1, out) :=
  ⟨_, _, mergeSort_range stats compare v begin end_ hbe he,
    mergeSortRightFirst_range stats compare v begin end_ hbe he⟩

/-- The instance of C13 for the whole of `[5, 3, 8, 1, 9, 2]` under `≤`. -/
theorem mergeSortRightFirst_eq_mergeSort_witness :
    0 ≤ 6 ∧ 6 ≤ [5, 3, 8, 1, 9, 2].length ∧
    ∃ stats1 out, mergeSort SortStats.empty natLE [5, 3, 8, 1, 9, 2] 0 6 = some (stats1, out) ∧
      mergeSortRightFirst SortStats.empty natLE [5, 3, 8, 1, 9, 2] 0 6 = some (stats1, out) :=
  ⟨by decide, by decide,
    mergeSortRightFirst_eq_mergeSort SortStats.empty natLE [5, 3, 8, 1, 9, 2] 0 6
      (by decide) (by decide)⟩


/-! ## Sorted input -/

theorem mergeCount_of_le (compare : α → α → Bool) :
    ∀ (l r : List α), (∀ a ∈ l, ∀ b ∈ r, compare a b = true) → r ≠ [] →
      mergeCount compare l r = l.length := by
  intro l
  induction l with
  | nil => intro r _ _; simp [mergeCount]
  | cons x l ih =>
    intro r h hr
    cases r with
    | nil => exact absurd rfl hr
    | cons y r =>
      rw [mergeCount_cons_cons,
        if_pos (h x (List.mem_cons_self x l) y (List.mem_cons_self y r)),
        ih (y :: r) (fun a ha b hb => h a (List.mem_cons_of_mem x ha) b hb) hr]
      rfl

theorem sortedComparisons_of_short (n : Nat) (h : ¬ 2 ≤ n) : sortedComparisons n = 0 := by
  rw [sortedComparisons, dif_neg h]

theorem sortedComparisons_split (n : Nat) (h : 2 ≤ n) :
    sortedComparisons n = sortedComparisons (n / 2) + sortedComparisons (n - n / 2) + n / 2 := by
  rw [sortedComparisons, dif_pos h]

theorem sortCount_of_pairwise (compare : α → α → Bool) :
    ∀ (n : Nat) (l : List α), l.length ≤ n → l.Pairwise (fun a b => compare a b = true) →
      sortCount compare l = sortedComparisons l.length := by
  intro n
  induction n with
  | zero =>
    intro l h _
    rw [sortCount_of_short compare l (by omega), sortedComparisons_of_short _ (by omega)]
  | succ n ih =>
    intro l h hp
    by_cases h2 : 2 ≤ l.length
    · obtain ⟨l1, l2, rfl, hl1⟩ := split_half l
      have hlen : (l1 ++ l2).length = l1.length + l2.length := List.length_append _ _
      obtain ⟨hp1, hp2, hp12⟩ := List.pairwise_append.mp hp
      have hl2 : (l1 ++ l2).length - (l1 ++ l2).length / 2 = l2.length := by omega
      have hne : l2 ≠ [] := by
        intro h0
        rw [h0] at hlen hl1
        simp only [List.length_nil, List.append_nil] at hlen hl1
        simp only [List.append_nil, h0] at h2
        omega
      rw [sortCount_append compare l1 l2 h2 hl1, sortedComparisons_split _ h2, hl2, ← hl1,
        ih l1 (by omega) hp1, ih l2 (by omega) hp2,
        sortList_of_pairwise compare l1.length l1 (Nat.le_refl _) hp1,
        sortList_of_pairwise compare l2.length l2 (Nat.le_refl _) hp2,
        mergeCount_of_le compare l1 l2 hp12 hne]
    · rw [sortCount_of_short compare l h2, sortedComparisons_of_short _ h2]

theorem sortCalls_pushed_of_pairwise (compare : α → α → Bool) :
    ∀ (n b : Nat) (l : List α), l.length ≤ n → l.Pairwise (fun a b => compare a b = true) →
      ∀ c ∈ sortCalls compare b l, c.pushed = c.middle - c.begin := by
  intro n
  induction n with
  | zero =>
    intro b l h _ c hc
    rw [sortCalls_of_short compare b l (by omega)] at hc
    simp at hc
  | succ n ih =>
    intro b l h hp c hc
    by_cases h2 : 2 ≤ l.length
    · obtain ⟨l1, l2, rfl, hl1⟩ := split_half l
      have hlen : (l1 ++ l2).length = l1.length + l2.length := List.length_append _ _
      obtain ⟨hp1, hp2, hp12⟩ := List.pairwise_append.mp hp
      have hne : l2 ≠ [] := by
        intro h0
        rw [h0] at hlen hl1
        simp only [List.length_nil, List.append_nil] at hlen hl1
        simp only [List.append_nil, h0] at h2
        omega
      rw [sortCalls_append compare b l1 l2 h2 hl1] at hc
      simp only [List.mem_append, List.mem_singleton] at hc
      rcases hc with (hc | hc) | hc
      · exact ih b l1 (by omega) hp1 c hc
      · exact ih _ l2 (by omega) hp2 c hc
      · rw [hc]
        simp only
        rw [sortList_of_pairwise compare l1.length l1 (Nat.le_refl _) hp1,
          sortList_of_pairwise compare l2.length l2 (Nat.le_refl _) hp2,
          mergeCount_of_le compare l1 l2 hp12 hne]
        omega
    · rw [sortCalls_of_short compare b l h2] at hc
      simp at hc

theorem slice_append_slice (v : List α) (b m e : Nat) (hbm : b ≤ m) (hme : m ≤ e) :
    slice v b m ++ slice v m e = slice v b e := by
  have hm : v.drop m = (v.drop b).drop (m - b) := by
    rw [List.drop_drop]; congr 1; omega
  have he : e - b = (m - b) + (e - m) := by omega
  rw [slice, slice, slice, hm, he, List.take_add]

theorem slice_sublist (v : List α) (b e : Nat) : (slice v b e).Sublist v :=
  (List.take_sublist _ _).trans (List.drop_sublist _ _)

/-- When every element of the unread left run compares before every element of the unread
right run and the right run is not exhausted, every iteration of the loop takes the left
element: the loop ends with the left run consumed and the right cursor where it was. -/
theorem mergeLoop_of_le (compare : α → α → Bool) (v : List α) (middle end_ : Nat)
    (hm : middle ≤ v.length) (he : end_ ≤ v.length) :
    ∀ (fuel : Nat) (s : MergeState α), s.left ≤ middle → s.right < end_ →
      (∀ x ∈ slice v s.left middle, ∀ y ∈ slice v s.right end_, compare x y = true) →
      middle - s.left < fuel →
      mergeLoop compare v middle end_ fuel s =
        some { vec := s.vec ++ slice v s.left middle, left := middle, right := s.right
               stats := s.stats.add (middle - s.left) } := by
  intro fuel
  induction fuel with
  | zero => intro s _ _ _ h; omega
  | succ fuel ih =>
    intro s hl hr hle hf
    by_cases hc : s.left = middle
    · have hcond : ¬ (s.left ≠ middle ∧ s.right ≠ end_) := fun h => h.1 hc
      rw [mergeLoop, if_neg hcond, hc, slice_self, Nat.sub_self, SortStats.add_zero,
        List.append_nil, ← hc]
    · obtain ⟨x, hx, hxs⟩ := slice_cons v s.left middle (by omega) hm
      obtain ⟨y, hy, hys⟩ := slice_cons v s.right end_ hr he
      have hxy : compare x y = true :=
        hle x (by rw [hxs]; exact List.mem_cons_self _ _) y
          (by rw [hys]; exact List.mem_cons_self _ _)
      have hcond : s.left ≠ middle ∧ s.right ≠ end_ := ⟨hc, by omega⟩
      have hstep := ih ⟨s.vec ++ [x], s.left + 1, s.right,
        ⟨s.stats.comparisons_count + 1, s.stats.swaps_count + 1, s.stats.execution_time⟩⟩
        (by simp only; omega) hr
        (fun a ha b hb => hle a (by rw [hxs]; exact List.mem_cons_of_mem _ ha) b hb)
        (by simp only; omega)
      simp only [mergeLoop, if_pos hcond, hx, hy, hxy, if_true, hstep, hxs]
      have hk : middle - s.left = (middle - (s.left + 1)) + 1 := by omega
      rw [hk]
      simp [SortStats.add, Nat.add_assoc, Nat.add_comm 1]


/-- C14: on an input already sorted under a transitive comparator (every adjacent pair satisfies
it), `mergeSort` returns the input unchanged, so every merge call runs on the input itself, and
for every merge call: both halves are non-empty, every element of the left run compares before
every element of the right run, the loop ends with the left run consumed and the right cursor
still at `middle` (every comparison returned true), and the call makes exactly
`middle - begin` comparisons.  The total `comparisons_count` is `C(n)` for `n` the size, where
`C(0) = C(1) = 0` and `C(n) = C(n / 2) + C(n - n / 2) + n / 2` for `n ≥ 2`. -/
theorem sorted_input_comparisons (compare : α → α → Bool)
    (htrans : ∀ a b c, compare a b = true → compare b c = true → compare a c = true)
    (v : List α) (hv : v.Chain' (fun a b => compare a b = true)) :
    ∃ stats calls,
      mergeSortTraced SortStats.empty compare v 0 v.length = some (stats, calls, v) ∧
      mergeSort SortStats.empty compare v 0 v.length = some (stats, v) ∧
      (∀ c ∈ calls, c.begin < c.middle ∧ c.middle < c.end_ ∧ c.end_ ≤ v.length ∧
        (∀ x ∈ slice v c.begin c.middle, ∀ y ∈ slice v c.middle c.end_, compare x y = true) ∧
        (∀ s : SortStats, mergeLoop compare v c.middle c.end_ (c.end_ - c.begin + 1)
            { vec := [], left := c.begin, right := c.middle, stats := s } =
          some { vec := slice v c.begin c.middle, left := c.middle, right := c.middle
                 stats := s.add (c.middle - c.begin) }) ∧
        c.pushed = c.middle - c.begin) ∧
      stats.comparisons_count = sortedComparisons v.length ∧
      sortedComparisons 0 = 0 ∧ sortedComparisons 1 = 0 ∧
      ∀ n, 2 ≤ n →
        sortedComparisons n = sortedComparisons (n / 2) + sortedComparisons (n - n / 2) + n / 2 := by
  have hp := (chain_iff_pairwise compare htrans v).mp hv
  have hsort := sortList_of_pairwise compare v.length v (Nat.le_refl _) hp
  have ht := mergeSortTraced_calls SortStats.empty compare v
  have hm := mergeSort_whole SortStats.empty compare v
  rw [hsort] at ht hm
  refine ⟨_, _, ht, hm, ?_, ?_, sortedComparisons_of_short 0 (by omega),
    sortedComparisons_of_short 1 (by omega), sortedComparisons_split⟩
  · intro c hc
    have hs := sortCalls_split compare v.length 0 v (Nat.le_refl _) c hc
    have hb : c.begin < c.middle := by omega
    have hme : c.middle < c.end_ := by omega
    have hend : c.end_ ≤ v.length := by omega
    have hcross : ∀ x ∈ slice v c.begin c.middle, ∀ y ∈ slice v c.middle c.end_,
        compare x y = true := by
      have hsub := slice_sublist v c.begin c.end_
      rw [← slice_append_slice v c.begin c.middle c.end_ (by omega) (by omega)] at hsub
      exact (List.pairwise_append.mp (hp.sublist hsub)).2.2
    refine ⟨hb, hme, hend, hcross, ?_, sortCalls_pushed_of_pairwise compare v.length 0 v
      (Nat.le_refl _) hp c hc⟩
    intro s
    have hloop := mergeLoop_of_le compare v c.middle c.end_ (by omega) hend
      (c.end_ - c.begin + 1) ⟨[], c.begin, c.middle, s⟩ (by simp only; omega) hme hcross
      (by simp only; omega)
    simpa only [List.nil_append] using hloop
  · rw [← sortCount_of_pairwise compare v.length v (Nat.le_refl _) hp]
    simp [SortStats.add, SortStats.empty]

/-- The instance of C14 for the sorted sequence `[1, 2, 2, 5, 7]` under `≤`. -/
theorem sorted_input_comparisons_witness :
    (∀ a b c, natLE a b = true → natLE b c = true → natLE a c = true) ∧
    List.Chain' (fun a b => natLE a b = true) [1, 2, 2, 5, 7] ∧
    ∃ stats calls,
      mergeSortTraced SortStats.empty natLE [1, 2, 2, 5, 7] 0 [1, 2, 2, 5, 7].length =
        some (stats, calls, [1, 2, 2, 5, 7]) ∧
      mergeSort SortStats.empty natLE [1, 2, 2, 5, 7] 0 [1, 2, 2, 5, 7].length =
        some (stats, [1, 2, 2, 5, 7]) ∧
      (∀ c ∈ calls, c.begin < c.middle ∧ c.middle < c.end_ ∧
        c.end_ ≤ [1, 2, 2, 5, 7].length ∧
        (∀ x ∈ slice [1, 2, 2, 5, 7] c.begin c.middle,
          ∀ y ∈ slice [1, 2, 2, 5, 7] c.middle c.end_, natLE x y = true) ∧
        (∀ s : SortStats, mergeLoop natLE [1, 2, 2, 5, 7] c.middle c.end_
            (c.end_ - c.begin + 1)
            { vec := [], left := c.begin, right := c.middle, stats := s } =
          some { vec := slice [1, 2, 2, 5, 7] c.begin c.middle, left := c.middle
                 right := c.middle, stats := s.add (c.middle - c.begin) }) ∧
        c.pushed = c.middle - c.begin) ∧
      stats.comparisons_count = sortedComparisons [1, 2, 2, 5, 7].length ∧
      sortedComparisons 0 = 0 ∧ sortedComparisons 1 = 0 ∧
      ∀ n, 2 ≤ n →
        sortedComparisons n = sortedComparisons (n / 2) + sortedComparisons (n - n / 2) + n / 2 :=
  ⟨natLE_trans, by simp [natLE],
    sorted_input_comparisons natLE natLE_trans [1, 2, 2, 5, 7] (by simp [natLE])⟩


/-! ## The comparisons of one merge -/

theorem min_le_mergeCount (compare : α → α → Bool) :
    ∀ (l r : List α), min l.length r.length ≤ mergeCount compare l r := by
  intro l
  induction l with
  | nil => intro r; simp
  | cons x l ihl =>
    intro r
    induction r with
    | nil => simp
    | cons y r ihr =>
      rw [mergeCount_cons_cons]
      have h1 := ihl (y :: r)
      have h2 := ihr
      simp only [List.length_cons] at h1 h2 ⊢
      split <;> omega

/-- C15: on a range of the vector split at `middle`, with runs of lengths `a = middle - begin`
and `b = end - middle`, one `mergeSortMerge` call adds the same `k` to both counters, where
`k = 0` if `a = 0` or `b = 0` and otherwise `min a b ≤ k ≤ a + b - 1`.  When the loop ends one
of the cursors is at the end of its run, so one of the two tail ranges is empty, and the
statistics the call returns are those at the end of the loop: the tail inserts add nothing. -/
theorem mergeSortMerge_count (stats : SortStats) (compare : α → α → Bool) (v : List α)
    (begin middle end_ : Nat) (hbm : begin ≤ middle) (hme : middle ≤ end_)
    (he : end_ ≤ v.length) :
    ∃ t k,
      mergeLoop compare v middle end_ (end_ - begin + 1)
        { vec := [], left := begin, right := middle, stats := stats } = some t ∧
      mergeSortMerge stats compare v begin middle end_ =
        some (t.stats, t.vec ++ slice v t.left middle ++ slice v t.right end_) ∧
      t.stats.comparisons_count = stats.comparisons_count + k ∧
      t.stats.swaps_count = stats.swaps_count + k ∧
      ((middle - begin = 0 ∨ end_ - middle = 0) → k = 0) ∧
      (0 < middle - begin → 0 < end_ - middle →
        min (middle - begin) (end_ - middle) ≤ k ∧ k ≤ (middle - begin) + (end_ - middle) - 1) ∧
      (t.left = middle ∨ t.right = end_) ∧
      (slice v t.left middle = [] ∨ slice v t.right end_ = []) := by
  obtain ⟨t, h1, h2, h3, h4, -, h6⟩ :=
    mergeLoop_spec compare v middle end_ (by omega) he (end_ - begin + 1)
      ⟨[], begin, middle, stats⟩ hbm hme (by simp only; omega)
  have hl := length_slice v begin middle (by omega)
  have hr := length_slice v middle end_ he
  refine ⟨t, mergeCount compare (slice v begin middle) (slice v middle end_), h1, ?_, ?_, ?_,
    ?_, ?_, h4, ?_⟩
  · simp only [mergeSortMerge, h1, Option.bind_eq_bind, Option.some_bind,
      range_eq_some v t.left middle h2 (by omega), range_eq_some v t.right end_ h3 he]
  · rw [h6]; rfl
  · rw [h6]; rfl
  · intro h0
    rcases h0 with h0 | h0
    · rw [List.length_eq_zero.mp (hl.trans h0)]
      simp [mergeCount]
    · rw [List.length_eq_zero.mp (hr.trans h0)]
      exact mergeCount_nil_right compare _
  · intro _ _
    have hlo := min_le_mergeCount compare (slice v begin middle) (slice v middle end_)
    have hhi := mergeCount_le compare (slice v begin middle) (slice v middle end_)
    rw [hl, hr] at hlo hhi
    exact ⟨hlo, hhi⟩
  · rcases h4 with h | h
    · left; rw [h, slice_self]
    · right; rw [h, slice_self]

/-- The instance of C15 for the vector `[9, 1, 4, 2, 3, 0]` under `≤` and the range `[1, 5)`
split at 3 (runs `[1, 4]` and `[2, 3]`). -/
theorem mergeSortMerge_count_witness :
    (1 ≤ 3 ∧ 3 ≤ 5 ∧ 5 ≤ [9, 1, 4, 2, 3, 0].length) ∧
    ∃ t k,
      mergeLoop natLE [9, 1, 4, 2, 3, 0] 3 5 (5 - 1 + 1)
        { vec := [], left := 1, right := 3, stats := SortStats.empty } = some t ∧
      mergeSortMerge SortStats.empty natLE [9, 1, 4, 2, 3, 0] 1 3 5 =
        some (t.stats, t.vec ++ slice [9, 1, 4, 2, 3, 0] t.left 3 ++
          slice [9, 1, 4, 2, 3, 0] t.right 5) ∧
      t.stats.comparisons_count = SortStats.empty.comparisons_count + k ∧
      t.stats.swaps_count = SortStats.empty.swaps_count + k ∧
      ((3 - 1 = 0 ∨ 5 - 3 = 0) → k = 0) ∧
      (0 < 3 - 1 → 0 < 5 - 3 → min (3 - 1) (5 - 3) ≤ k ∧ k ≤ (3 - 1) + (5 - 3) - 1) ∧
      (t.left = 3 ∨ t.right = 5) ∧
      (slice [9, 1, 4, 2, 3, 0] t.left 3 = [] ∨ slice [9, 1, 4, 2, 3, 0] t.right 5 = []) :=
  ⟨by decide,
    mergeSortMerge_count SortStats.empty natLE [9, 1, 4, 2, 3, 0] 1 3 5
      (by decide) (by decide) (by decide)⟩


/-! ## The frame of a sort -/

theorem getElem?_outside (pre x y post : List α) (hxy : x.length = y.length) (i : Nat)
    (hi : i < pre.length ∨ pre.length + x.length ≤ i) :
    (pre ++ x ++ post)[i]? = (pre ++ y ++ post)[i]? := by
  rcases hi with hi | hi
  · rw [List.append_assoc, List.append_assoc, List.getElem?_append_left hi,
      List.getElem?_append_left hi]
  · have h1 : (pre ++ x).length ≤ i := by rw [List.length_append]; exact hi
    have h2 : (pre ++ y).length ≤ i := by rw [List.length_append, ← hxy]; exact hi
    rw [List.getElem?_append_right h1, List.getElem?_append_right h2, List.length_append,
      List.length_append, hxy]

/-- C16: `mergeSort(stats, compare, begin, end)` on a range `[begin, end)` of a larger sequence
returns with the length of the sequence unchanged and with every element at a position before
`begin` or at or after `end` unchanged, for every comparator. -/
theorem mergeSort_frame (stats : SortStats) (compare : α → α → Bool) (v : List α)
    (begin end_ : Nat) (hbe : begin ≤ end_) (he : end_ ≤ v.length) :
    ∃ stats1 out, mergeSort stats compare v begin end_ = some (stats1, out) ∧
      out.length = v.length ∧
      ∀ i, (i < begin ∨ end_ ≤ i) → out[i]? = v[i]? := by
  have hl : (slice v begin end_).length = end_ - begin := length_slice v begin end_ he
  have ht : (v.take begin).length = begin := by rw [List.length_take]; omega
  have hs := length_sortList compare (slice v begin end_)
  have hv := take_slice_drop v begin end_ hbe
  refine ⟨_, _, mergeSort_range stats compare v begin end_ hbe he, ?_, ?_⟩
  · have h := congrArg List.length hv
    simp only [List.length_append] at h ⊢
    omega
  · intro i hi
    have h := getElem?_outside (v.take begin) (sortList compare (slice v begin end_))
      (slice v begin end_) (v.drop end_) hs i (by rw [ht, hs, hl]; omega)
    rw [hv] at h
    exact h

/-- The instance of C16 for the range `[2, 5)` of `[9, 8, 7, 3, 2, 1, 0]` under `≤`. -/
theorem mergeSort_frame_witness :
    2 ≤ 5 ∧ 5 ≤ [9, 8, 7, 3, 2, 1, 0].length ∧
    ∃ stats1 out, mergeSort SortStats.empty natLE [9, 8, 7, 3, 2, 1, 0] 2 5 =
        some (stats1, out) ∧
      out.length = [9, 8, 7, 3, 2, 1, 0].length ∧
      ∀ i, (i < 2 ∨ 5 ≤ i) → out[i]? = [9, 8, 7, 3, 2, 1, 0][i]? :=
  ⟨by decide, by decide,
    mergeSort_frame SortStats.empty natLE [9, 8, 7, 3, 2, 1, 0] 2 5 (by decide) (by decide)⟩


/-! ## Termination -/

/-- One iteration of the loop of `mergeSortMerge`, with both cursors inside their runs,
advances exactly one of the two cursors by one position. -/
theorem mergeLoop_step (compare : α → α → Bool) (v : List α) (middle end_ : Nat)
    (hm : middle ≤ v.length) (he : end_ ≤ v.length) (fuel : Nat) (s : MergeState α)
    (hl : s.left < middle) (hr : s.right < end_) :
    ∃ t, mergeLoop compare v middle end_ (fuel + 1) s = mergeLoop compare v middle end_ fuel t ∧
      ((t.left = s.left + 1 ∧ t.right = s.right) ∨
        (t.left = s.left ∧ t.right = s.right + 1)) := by
  obtain ⟨x, hx, -⟩ := slice_cons v s.left middle hl hm
  obtain ⟨y, hy, -⟩ := slice_cons v s.right end_ hr he
  have hcond : s.left ≠ middle ∧ s.right ≠ end_ := ⟨by omega, by omega⟩
  by_cases hxy : compare x y = true
  · exact ⟨⟨s.vec ++ [x], s.left + 1, s.right,
      ⟨s.stats.comparisons_count + 1, s.stats.swaps_count + 1, s.stats.execution_time⟩⟩,
      by simp only [mergeLoop, if_pos hcond, hx, hy, hxy, if_true], Or.inl ⟨rfl, rfl⟩⟩
  · exact ⟨⟨s.vec ++ [y], s.left, s.right + 1,
      ⟨s.stats.comparisons_count + 1, s.stats.swaps_count + 1, s.stats.execution_time⟩⟩,
      by simp only [mergeLoop, if_pos hcond, hx, hy, if_neg hxy], Or.inr ⟨rfl, rfl⟩⟩

/-- C17: the recursion of `mergeSort` terminates on every range of the vector.  When
`end - begin ≥ 2`, `middle = begin + (end - begin) / 2` satisfies `begin < middle < end`, and
the two recursive calls are the calls on `[begin, middle)` and `[middle, end)`; with every
recursion budget above `end - begin` the function returns, and returns the same result.  In
the loop of `mergeSortMerge` each iteration advances exactly one of the two cursors, and the
loop, hence `mergeSortMerge`, returns within `end - begin + 1` loop tests. -/
theorem mergeSort_terminates (stats : SortStats) (compare : α → α → Bool) (v : List α)
    (begin middle end_ : Nat) (hbm : begin ≤ middle) (hme : middle ≤ end_)
    (he : end_ ≤ v.length) :
    (2 ≤ end_ - begin →
      begin < begin + (end_ - begin) / 2 ∧ begin + (end_ - begin) / 2 < end_ ∧
      ∀ fuel, mergeSortFuel compare (fuel + 1) stats v begin end_ = (do
        let (stats1, v1) ←
          mergeSortFuel compare fuel stats v begin (begin + (end_ - begin) / 2)
        let (stats2, v2) ←
          mergeSortFuel compare fuel stats1 v1 (begin + (end_ - begin) / 2) end_
        let (stats3, vec) ←
          mergeSortMerge stats2 compare v2 begin (begin + (end_ - begin) / 2) end_
        let v3 ← move vec v2 begin
        some (stats3, v3))) ∧
    (∀ fuel, end_ - begin < fuel →
      mergeSortFuel compare fuel stats v begin end_ = mergeSort stats compare v begin end_) ∧
    (∃ r, mergeSort stats compare v begin end_ = some r) ∧
    (∀ fuel (s : MergeState α), s.left < middle → s.right < end_ →
      ∃ t, mergeLoop compare v middle end_ (fuel + 1) s =
          mergeLoop compare v middle end_ fuel t ∧
        ((t.left = s.left + 1 ∧ t.right = s.right) ∨
          (t.left = s.left ∧ t.right = s.right + 1))) ∧
    (∃ t, mergeLoop compare v middle end_ (end_ - begin + 1)
      { vec := [], left := begin, right := middle, stats := stats } = some t) ∧
    (∃ r, mergeSortMerge stats compare v begin middle end_ = some r) := by
  refine ⟨?_, ?_, ⟨_, mergeSort_range stats compare v begin end_ (by omega) he⟩, ?_, ?_,
    ⟨_, mergeSortMerge_spec stats compare v begin middle end_ hbm hme he⟩⟩
  · intro h2
    refine ⟨by omega, by omega, ?_⟩
    intro fuel
    have hge : end_ - begin ≥ 2 := h2
    rw [mergeSortFuel, if_pos hge]
  · intro fuel hf
    rw [mergeSortFuel_range compare fuel stats v begin end_ (by omega) he hf,
      mergeSort_range stats compare v begin end_ (by omega) he]
  · intro fuel s hl hr
    exact mergeLoop_step compare v middle end_ (by omega) he fuel s hl hr
  · obtain ⟨t, h1, -⟩ := mergeLoop_spec compare v middle end_ (by omega) he
      (end_ - begin + 1) ⟨[], begin, middle, stats⟩ hbm hme (by simp only; omega)
    exact ⟨t, h1⟩

/-- The instance of C17 for the vector `[9, 1, 4, 2, 3, 0]` under `≤` and the range `[1, 5)`
split at 3. -/
theorem mergeSort_terminates_witness :
    (1 ≤ 3 ∧ 3 ≤ 5 ∧ 5 ≤ [9, 1, 4, 2, 3, 0].length) ∧
    (∀ fuel, 5 - 1 < fuel →
      mergeSortFuel natLE fuel SortStats.empty [9, 1, 4, 2, 3, 0] 1 5 =
        mergeSort SortStats.empty natLE [9, 1, 4, 2, 3, 0] 1 5) ∧
    (∃ r, mergeSort SortStats.empty natLE [9, 1, 4, 2, 3, 0] 1 5 = some r) ∧
    (∃ t, mergeLoop natLE [9, 1, 4, 2, 3, 0] 3 5 (5 - 1 + 1)
      { vec := [], left := 1, right := 3, stats := SortStats.empty } = some t) ∧
    (∃ r, mergeSortMerge SortStats.empty natLE [9, 1, 4, 2, 3, 0] 1 3 5 = some r) :=
  ⟨by decide,
    (mergeSort_terminates SortStats.empty natLE [9, 1, 4, 2, 3, 0] 1 3 5
      (by decide) (by decide) (by decide)).2.1,
    (mergeSort_terminates SortStats.empty natLE [9, 1, 4, 2, 3, 0] 1 3 5
      (by decide) (by decide) (by decide)).2.2.1,
    (mergeSort_terminates SortStats.empty natLE [9, 1, 4, 2, 3, 0] 1 3 5
      (by decide) (by decide) (by decide)).2.2.2.2.1,
    (mergeSort_terminates SortStats.empty natLE [9, 1, 4, 2, 3, 0] 1 3 5
      (by decide) (by decide) (by decide)).2.2.2.2.2⟩


/-! ## Descending against ascending -/

/-- C18: over an element type whose `≤` is a linear order, the sequence produced by the entry
point with DESC is exactly the reverse of the sequence it produces with ASC on the same
input. -/
theorem mergeSortVector_DESC_reverse [LinearOrder α] (vec : List α) (elapsed : Nat) :
    ∃ stats1 out1 stats2 out2,
      mergeSortVector vec SortOrder.ASC elapsed = some (stats1, out1) ∧
      mergeSortVector vec SortOrder.DESC elapsed = some (stats2, out2) ∧
      out2 = out1.reverse := by
  refine ⟨_, _, _, _, mergeSortVector_ASC vec elapsed, mergeSortVector_DESC vec elapsed, ?_⟩
  have hle : (sortList (fun a b : α => decide (a ≤ b)) vec).Pairwise (fun a b => a ≤ b) :=
    List.chain'_iff_pairwise.mp (sortList_chain_le vec)
  have hge : (sortList (fun a b : α => decide (a ≥ b)) vec).Pairwise (fun a b => a ≥ b) :=
    List.chain'_iff_pairwise.mp (sortList_chain_ge vec)
  have hrev : (sortList (fun a b : α => decide (a ≤ b)) vec).reverse.Pairwise
      (fun a b => a ≥ b) := List.pairwise_reverse.mpr hle
  have hperm : (sortList (fun a b : α => decide (a ≥ b)) vec).Perm
      (sortList (fun a b : α => decide (a ≤ b)) vec).reverse :=
    (sortList_perm _ vec.length vec (Nat.le_refl _)).trans
      ((sortList_perm _ vec.length vec (Nat.le_refl _)).symm.trans
        (List.reverse_perm _).symm)
  exact List.eq_of_perm_of_sorted hperm hge hrev


end MergeSort
